import Mathlib

/-!
Shallow embedding of the compression engine of the repository (the Go
WebAssembly module `wasm/main.go` that the frontend loads).  Byte buffers
are `List Nat` (one entry per byte value); a Go string obtained by
`string(data)` shares the same byte representation, so both are embedded
as the same list.  Every helper of the source is translated
function-by-function; loops with a running index `i` become structural
recursions over the suffix `data[i:]`, and loops whose progress argument
is a strict length decrease use an explicit fuel initialised with the
buffer length (the theorems below show that this fuel always suffices).
Floating-point ratio tests of the source (`< 0.95`, `>= 0.8`, `>= 0.95`)
are modelled as the exact rational comparisons they implement.
-/

namespace PdfTurbo

/-- Boolean test that `p` is an initial run of `l` (Go `strings.HasPrefix`
applied to byte strings). -/
def isPrefB : List Nat → List Nat → Bool
  | [], _ => true
  | _ :: _, [] => false
  | a :: as, b :: bs => a == b && isPrefB as bs

/-- First index at which `p` occurs in `l` (Go `strings.Index`); `none` when
`p` does not occur.  The empty pattern occurs at index 0, as in Go. -/
def idxOfSeq (p : List Nat) : List Nat → Option Nat
  | [] => if isPrefB p [] then some 0 else none
  | x :: xs => if isPrefB p (x :: xs) then some 0 else (idxOfSeq p xs).map (· + 1)

/-- Go `strings.Contains` for byte strings. -/
def hasSeq (p l : List Nat) : Bool := (idxOfSeq p l).isSome

/-- The scanning recursion of Go `strings.ReplaceAll`, with fuel: replace
every non-overlapping leftmost occurrence of `p` by `r`, scanning left to
right and resuming after each replaced occurrence.  One unit of fuel is
spent per byte position, so a fuel equal to the buffer length always
suffices. -/
def replaceAllSeqF (p r : List Nat) : Nat → List Nat → List Nat
  | 0, l => l
  | _ + 1, [] => []
  | fuel + 1, x :: xs =>
    if 0 < p.length ∧ isPrefB p (x :: xs) = true then
      r ++ replaceAllSeqF p r fuel (List.drop (p.length - 1) xs)
    else
      x :: replaceAllSeqF p r fuel xs

/-- Go `strings.ReplaceAll` for byte strings. -/
def replaceAllSeq (p r l : List Nat) : List Nat := replaceAllSeqF p r l.length l

/-- One `for strings.Contains(content, p) { content = ReplaceAll(content, p, r) }`
loop of `optimizeStreams` (main.go lines 333-335 and 342-344), with fuel. -/
def shrinkLoopF (p r : List Nat) : Nat → List Nat → List Nat
  | 0, l => l
  | fuel + 1, l =>
    if hasSeq p l = true then shrinkLoopF p r fuel (replaceAllSeq p r l) else l

/-- The collapse loop with its fuel set to the buffer length; since every
iteration of the loops used by the source strictly shrinks the buffer, this
fuel is always sufficient (proved below). -/
def shrinkLoop (p r l : List Nat) : List Nat := shrinkLoopF p r l.length l

/-- The value-terminator loop of `removeMetadataBinary` (main.go lines
308-310), with fuel: scan forward from position `e` to the first `/` byte
(47) or `>>` pair (62 62) or the end of the buffer. -/
def findValueEndF (content : List Nat) : Nat → Nat → Nat
  | 0, e => e
  | fuel + 1, e =>
    if e < content.length then
      if content.getD e 0 ≠ 47 ∧ isPrefB [62, 62] (content.drop e) = false then
        findValueEndF content fuel (e + 1)
      else e
    else e

/-- The value-terminator scan; the loop advances one position per step, so
`content.length - e` units of fuel always suffice. -/
def findValueEnd (content : List Nat) (e : Nat) : Nat :=
  findValueEndF content (content.length - e) e

/-- One iteration of the per-pattern removal loop of `removeMetadataBinary`
(main.go lines 298-315): locate the pattern, extend to the value terminator,
and splice the span out; `none` when the pattern no longer occurs. -/
def removeOncePat (p content : List Nat) : Option (List Nat) :=
  match idxOfSeq p content with
  | none => none
  | some s => some (content.take s ++ content.drop (findValueEnd content (s + p.length)))

/-- The `for { ... }` removal loop for one metadata pattern, with fuel. -/
def removeAllPatF (p : List Nat) : Nat → List Nat → List Nat
  | 0, content => content
  | fuel + 1, content =>
    match removeOncePat p content with
    | none => content
    | some c => removeAllPatF p fuel c

/-- The removal loop with fuel set to the buffer length; every iteration
removes at least the pattern itself, so the fuel always suffices (proved
below). -/
def removeAllPat (p content : List Nat) : List Nat := removeAllPatF p content.length content

/-- The byte string `/Creator`. -/
def patCreator : List Nat := [47, 67, 114, 101, 97, 116, 111, 114]

/-- The byte string `/Producer`. -/
def patProducer : List Nat := [47, 80, 114, 111, 100, 117, 99, 101, 114]

/-- The byte string `/CreationDate`. -/
def patCreationDate : List Nat := [47, 67, 114, 101, 97, 116, 105, 111, 110, 68, 97, 116, 101]

/-- The byte string `/ModDate`. -/
def patModDate : List Nat := [47, 77, 111, 100, 68, 97, 116, 101]

/-- The byte string `/Title`. -/
def patTitle : List Nat := [47, 84, 105, 116, 108, 101]

/-- The byte string `/Author`. -/
def patAuthor : List Nat := [47, 65, 117, 116, 104, 111, 114]

/-- The byte string `/Subject`. -/
def patSubject : List Nat := [47, 83, 117, 98, 106, 101, 99, 116]

/-- The byte string `/Keywords`. -/
def patKeywords : List Nat := [47, 75, 101, 121, 119, 111, 114, 100, 115]

/-- The metadata pattern table of `removeMetadataBinary` (main.go lines 292-295),
in source order. -/
def pdfMetaPatterns : List (List Nat) :=
  [patCreator, patProducer, patCreationDate, patModDate,
   patTitle, patAuthor, patSubject, patKeywords]

/-- `removeMetadataBinary` (main.go lines 285-319): for each pattern in turn,
repeatedly locate and splice out the key-plus-value span until the pattern no
longer occurs. -/
def removeMetadataBinary (data : List Nat) : List Nat :=
  pdfMetaPatterns.foldl (fun c p => removeAllPat p c) data

/-- `optimizeStreams` (main.go lines 322-347): newline normalisation, the
triple-newline collapse loop, trailing-whitespace removal, and the
double-space collapse loop.  Byte values: 13 CR, 10 LF, 32 space, 9 tab. -/
def optimizeStreams (data : List Nat) : List Nat :=
  let c1 := replaceAllSeq [13, 10] [10] data
  let c2 := replaceAllSeq [13] [10] c1
  let c3 := shrinkLoop [10, 10, 10] [10, 10] c2
  let c4 := replaceAllSeq [32, 10] [10] c3
  let c5 := replaceAllSeq [9, 10] [10] c4
  shrinkLoop [32, 32] [32] c5

/-- The scanning loop of `compressJpegData` (main.go lines 173-218) over the
remaining suffix, returning the surviving bytes together with the
`bytesRemoved` counter.  A marker is only examined when more than 3 bytes
remain (`i < len(jpegData)-3`); the declared segment length is the
big-endian pair at offsets 2 and 3, and a removal skips `2 + segmentLength`
bytes, which may overrun the end of the buffer. -/
def jpegScanF : Nat → List Nat → List Nat × Nat
  | 0, l => (l, 0)
  | _ + 1, [] => ([], 0)
  | fuel + 1, x :: xs =>
    if 4 ≤ (x :: xs).length then
      let m2 := (x :: xs).getD 1 0
      let segLen := (x :: xs).getD 2 0 * 256 + (x :: xs).getD 3 0
      if x = 255 ∧ m2 = 225 ∧ 10240 < segLen then
        let p := jpegScanF fuel ((x :: xs).drop (2 + segLen))
        (p.1, p.2 + (2 + segLen))
      else if x = 255 ∧ m2 = 254 ∧ 1024 < segLen then
        let p := jpegScanF fuel ((x :: xs).drop (2 + segLen))
        (p.1, p.2 + (2 + segLen))
      else if x = 255 ∧ 226 ≤ m2 ∧ m2 ≤ 239 ∧ 20480 < segLen then
        let p := jpegScanF fuel ((x :: xs).drop (2 + segLen))
        (p.1, p.2 + (2 + segLen))
      else
        let p := jpegScanF fuel xs
        (x :: p.1, p.2)
    else
      let p := jpegScanF fuel xs
      (x :: p.1, p.2)

/-- The scan consumes at least one byte per step, so a fuel equal to the
buffer length always suffices. -/
def jpegScan (l : List Nat) : List Nat × Nat := jpegScanF l.length l

/-- `compressJpegData` (main.go lines 168-229): keep the scanned result only
when `bytesRemoved > len(jpegData)/20` (Go integer division), otherwise
return the input span untouched. -/
def compressJpegData (jpegData : List Nat) : List Nat :=
  if jpegData.length / 20 < (jpegScan jpegData).2 then (jpegScan jpegData).1 else jpegData

/-- The chunk loop of `compressPngData` (main.go lines 239-279) over the
suffix that starts after the 8-byte signature.  When fewer than 8 bytes
remain they are copied verbatim; otherwise the big-endian chunk length and
the 4-byte chunk type decide whether the 12+length chunk is kept, and a kept
chunk is only copied when it lies entirely inside the buffer.  Chunk types:
tEXt, zTXt, iTXt (dropped above 1024 bytes), tIME (always dropped), pHYs
(dropped above 512 bytes). -/
def pngScanF : Nat → List Nat → List Nat
  | 0, l => l
  | fuel + 1, l =>
    if l.length < 8 then l
    else
      let cl := l.getD 0 0 * 16777216 + l.getD 1 0 * 65536 + l.getD 2 0 * 256 + l.getD 3 0
      let ct := [l.getD 4 0, l.getD 5 0, l.getD 6 0, l.getD 7 0]
      let keepB : Bool :=
        if ct = [116, 69, 88, 116] ∨ ct = [122, 84, 88, 116] ∨ ct = [105, 84, 88, 116] then
          decide (cl ≤ 1024)
        else if ct = [116, 73, 77, 69] then false
        else if ct = [112, 72, 89, 115] then decide (cl ≤ 512)
        else true
      (if keepB = true ∧ 12 + cl ≤ l.length then l.take (12 + cl) else []) ++
        pngScanF fuel (l.drop (12 + cl))

/-- The chunk loop consumes at least 12 bytes per step, so a fuel equal to
the buffer length always suffices. -/
def pngScan (l : List Nat) : List Nat := pngScanF l.length l

/-- `compressPngData` (main.go lines 232-282): copy the 8-byte signature,
then run the chunk loop on the rest.  (The Go slice `pngData[:8]` requires at
least 8 bytes; the checked variant below accounts for that.) -/
def compressPngData (pngData : List Nat) : List Nat :=
  pngData.take 8 ++ pngScan (pngData.drop 8)

/-- The end-marker search of the JPEG branch of `compressEmbeddedImages`
(main.go lines 92-97), in coordinates relative to the span start: the first
`j ≥ 2` with `FF D9` at `j`, subject to the loop bound `j+1 < length`;
returns the exclusive span end `j + 2`. -/
def findJpegEndFromF (l : List Nat) : Nat → Nat → Option Nat
  | 0, _ => none
  | fuel + 1, j =>
    if j + 1 < l.length then
      if l.getD j 0 = 255 ∧ l.getD (j + 1) 0 = 217 then some (j + 2)
      else findJpegEndFromF l fuel (j + 1)
    else none

/-- The end-marker search; `l.length - j` units of fuel always suffice, and
with that much fuel the zero-fuel fallback coincides with the exhausted
loop bound. -/
def findJpegEndFrom (l : List Nat) (j : Nat) : Option Nat :=
  findJpegEndFromF l (l.length - j) j

/-- The IEND search of the PNG branch of `compressEmbeddedImages`
(main.go lines 128-133): the first `j ≥ 8` with `I E N D` at `j`, subject to
the loop bound `j+7 < length`; returns the span end `j + 8` (IEND plus CRC). -/
def findPngEndFromF (l : List Nat) : Nat → Nat → Option Nat
  | 0, _ => none
  | fuel + 1, j =>
    if j + 7 < l.length then
      if l.getD j 0 = 73 ∧ l.getD (j + 1) 0 = 69 ∧ l.getD (j + 2) 0 = 78 ∧
          l.getD (j + 3) 0 = 68 then
        some (j + 8)
      else findPngEndFromF l fuel (j + 1)
    else none

/-- The IEND search; `l.length - j` units of fuel always suffice. -/
def findPngEndFrom (l : List Nat) (j : Nat) : Option Nat :=
  findPngEndFromF l (l.length - j) j

/-- The JPEG span detected at the start of the suffix `l` by
`compressEmbeddedImages` (main.go lines 86-99): more than 2 bytes remaining,
the `FF D8` start marker, a subsequent end marker, and a span longer than
1000 bytes; `none` otherwise.  (The source checks the signature before
searching; the search is pure, so filtering afterwards is equivalent.) -/
def jpegSpanLen (l : List Nat) : Option Nat :=
  match findJpegEndFrom l 2 with
  | none => none
  | some e =>
    if 2 < l.length ∧ l.getD 0 0 = 255 ∧ l.getD 1 0 = 216 ∧ 1000 < e then some e else none

/-- The PNG span detected at the start of the suffix `l` by
`compressEmbeddedImages` (main.go lines 121-136): more than 7 bytes
remaining, the 4-byte PNG signature, an IEND found by the bounded search,
and a span longer than 1000 bytes. -/
def pngSpanLen (l : List Nat) : Option Nat :=
  match findPngEndFrom l 8 with
  | none => none
  | some e =>
    if 7 < l.length ∧ l.getD 0 0 = 137 ∧ l.getD 1 0 = 80 ∧ l.getD 2 0 = 78 ∧ l.getD 3 0 = 71 ∧
        1000 < e then
      some e
    else none

/-- The byte-scanning loop of `compressEmbeddedImages` (main.go lines 84-159)
over the remaining suffix, with fuel: splice a detected JPEG/PNG span through
its recompressor when the candidate is strictly smaller, keep the span
otherwise, and copy single bytes when no span is detected. -/
def embScanF : Nat → List Nat → List Nat
  | 0, _ => []
  | _ + 1, [] => []
  | fuel + 1, x :: xs =>
    match jpegSpanLen (x :: xs) with
    | some e =>
      let span := (x :: xs).take e
      let cand := compressJpegData span
      (if cand.length < e then cand else span) ++ embScanF fuel ((x :: xs).drop e)
    | none =>
      match pngSpanLen (x :: xs) with
      | some e =>
        let span := (x :: xs).take e
        let cand := compressPngData span
        (if cand.length < e then cand else span) ++ embScanF fuel ((x :: xs).drop e)
      | none => x :: embScanF fuel xs

/-- `compressEmbeddedImages` (main.go lines 62-165).  Every detected span is
longer than 1000 bytes, so a fuel equal to the buffer length always
suffices. -/
def compressEmbeddedImages (data : List Nat) : List Nat := embScanF data.length data

/-- The PDF magic test of `compressPDFData` (main.go line 23):
at least 4 bytes and the leading bytes `%PDF` (37 80 68 70). -/
def isPdf (l : List Nat) : Bool := decide (4 ≤ l.length) && (l.take 4 == [37, 80, 68, 70])

/-- The three-stage pipeline of `compressPDFData` (main.go lines 31-41). -/
def pdfTransformed (inputBytes : List Nat) : List Nat :=
  optimizeStreams (removeMetadataBinary (compressEmbeddedImages inputBytes))

/-- `compressPDFData` (main.go lines 19-59) together with the sequence of
values it passes to the progress callback: non-PDF input returns immediately
with no progress call; otherwise progress 20/50/70/90 brackets the pipeline
and the final selector (`ratio < 0.95`, modelled exactly as
`20·len(out) < 19·len(in)`) picks the transformed buffer or the original,
reporting 100 in both branches. -/
def compressPDFDataT (inputBytes : List Nat) : List Nat × List Nat :=
  if isPdf inputBytes = false then (inputBytes, [])
  else
    let c3 := pdfTransformed inputBytes
    if 20 * c3.length < 19 * inputBytes.length then (c3, [20, 50, 70, 90, 100])
    else (inputBytes, [20, 50, 70, 90, 100])

/-- The buffer returned by `compressPDFData`. -/
def compressPDFData (inputBytes : List Nat) : List Nat := (compressPDFDataT inputBytes).1

/-- The `compressPDF` wrapper (main.go lines 493-579): empty input is
rejected before any progress call; otherwise progress 10 is reported, the
core runs, and the promise resolves with the resulting buffer.  The first
component is `some data` on success and `none` on rejection; the second is
the full progress sequence. -/
def compressPDF (input : List Nat) : Option (List Nat) × List Nat :=
  if input.isEmpty then (none, [])
  else
    let c := compressPDFDataT input
    (some c.1, 10 :: c.2)

/-- One candidate test of `compressImage` (main.go lines 683-687 and
analogous blocks): a successful encode replaces the running best exactly
when it is strictly smaller. -/
def candStep (best : Option (List Nat) × Nat) (e : Option (List Nat)) :
    Option (List Nat) × Nat :=
  match e with
  | none => best
  | some b => if b.length < best.2 then (some b, b.length) else best

/-- The best candidate accumulated by `compressImage` (main.go lines
676-731): the JPEG quality ladder 85/75/60/40 in order, then one PNG
attempt exactly when `bestSize ≥ 0.8·len(input)` (modelled exactly as
`4·len(input) ≤ 5·bestSize`) and the MIME hint does not contain "png".
The encoder outcomes are abstract parameters (`none` = failed encode),
since the codecs live in the Go standard library. -/
def imgBest (input : List Nat) (mimePng : Bool)
    (e85 e75 e60 e40 ePng : Option (List Nat)) : Option (List Nat) × Nat :=
  let n := input.length
  let b4 := [e85, e75, e60, e40].foldl candStep (none, n)
  if 4 * n ≤ 5 * b4.2 ∧ mimePng = false then candStep b4 ePng else b4

/-- The final selection of `compressImage` (main.go lines 733-741): when
`bestSize ≥ 0.95·len(input)` (exactly: `19·len(input) ≤ 20·bestSize`) the
original bytes are returned, otherwise the accumulated best candidate. -/
def imgSelect (input : List Nat) (mimePng : Bool)
    (e85 e75 e60 e40 ePng : Option (List Nat)) : List Nat :=
  if 19 * input.length ≤ 20 * (imgBest input mimePng e85 e75 e60 e40 ePng).2 then input
  else (imgBest input mimePng e85 e75 e60 e40 ePng).1.getD input

/-- The `compressImage` wrapper (main.go lines 582-762) with its progress
trace: progress 20 precedes the decode; a decode failure rejects (no further
progress); a successful decode yields the selected buffer with the trace
20/40/60/70/80/90/100. -/
def compressImageT (input : List Nat) (decodeOk : Bool) (mimePng : Bool)
    (e85 e75 e60 e40 ePng : Option (List Nat)) : Option (List Nat) × List Nat :=
  if decodeOk then
    (some (imgSelect input mimePng e85 e75 e60 e40 ePng), [20, 40, 60, 70, 80, 90, 100])
  else (none, [20])

/-- First list of minimal length in a list of candidate buffers (earlier
entries win ties). -/
def minBySize : List (List Nat) → Option (List Nat)
  | [] => none
  | x :: xs =>
    match minBySize xs with
    | none => some x
    | some y => if y.length < x.length then some y else some x

/-- Restatement of the image selection policy written from the spec text
(spec section 4.3): the smallest successful JPEG ladder encode; one lossless
PNG attempt joins the pool exactly when that smallest is still at least 80
percent of the input size and the MIME hint is not PNG; the best of the pool
is returned only when at least 5 percent smaller than the input, otherwise
the original bytes. -/
def imageSpecOut (input : List Nat) (mimePng : Bool)
    (e85 e75 e60 e40 ePng : Option (List Nat)) : List Nat :=
  let n := input.length
  let js := [e85, e75, e60, e40].filterMap id
  let smallest := match minBySize js with | none => n | some m => m.length
  let tryPng := decide (4 * n ≤ 5 * smallest) && !mimePng
  let pool := js ++ (match ePng, tryPng with | some p, true => [p] | _, _ => [])
  match minBySize pool with
  | none => input
  | some b => if 20 * b.length < 19 * n then b else input

/-- A fold of `candStep` over already-successful candidates (used to relate
the candidate ladder to `minBySize`). -/
def candFold (js : List (List Nat)) (b : Option (List Nat) × Nat) :
    Option (List Nat) × Nat :=
  js.foldl (fun b x => if x.length < b.2 then (some x, x.length) else b) b

/-- A segment of the `compressEmbeddedImages` scan: a literal byte, a
detected JPEG span, or a detected PNG span. -/
inductive PdfSeg where
  | lit : Nat → PdfSeg
  | jpg : List Nat → PdfSeg
  | png : List Nat → PdfSeg

/-- The original bytes a segment covers. -/
def segOrig : PdfSeg → List Nat
  | .lit b => [b]
  | .jpg s => s
  | .png s => s

/-- The bytes a segment contributes to the output: a detected span is
replaced by its recompression candidate exactly when the candidate is
strictly smaller. -/
def segOut : PdfSeg → List Nat
  | .lit b => [b]
  | .jpg s => if (compressJpegData s).length < s.length then compressJpegData s else s
  | .png s => if (compressPngData s).length < s.length then compressPngData s else s

/-- Validity of a segment: a detected span is longer than 1000 bytes,
carries the right signature, and its end marker search finds exactly its own
length. -/
def segValidB : PdfSeg → Bool
  | .lit _ => true
  | .jpg s =>
    decide (1000 < s.length) && (s.getD 0 0 == 255) && (s.getD 1 0 == 216) &&
      (findJpegEndFrom s 2 == some s.length)
  | .png s =>
    decide (1000 < s.length) && (s.getD 0 0 == 137) && (s.getD 1 0 == 80) &&
      (s.getD 2 0 == 78) && (s.getD 3 0 == 71) && (findPngEndFrom s 8 == some s.length)

/-- Concatenation of a rendering of each element. -/
def flatCat {α : Type} (f : α → List Nat) : List α → List Nat
  | [] => []
  | s :: rest => f s ++ flatCat f rest

/-- The segmentation produced by the `compressEmbeddedImages` scan, with the
same recursion structure and fuel as `embScanF`. -/
def embSegsF : Nat → List Nat → List PdfSeg
  | 0, _ => []
  | _ + 1, [] => []
  | fuel + 1, x :: xs =>
    match jpegSpanLen (x :: xs) with
    | some e => .jpg ((x :: xs).take e) :: embSegsF fuel ((x :: xs).drop e)
    | none =>
      match pngSpanLen (x :: xs) with
      | some e => .png ((x :: xs).take e) :: embSegsF fuel ((x :: xs).drop e)
      | none => .lit x :: embSegsF fuel xs

/-- The segmentation of a whole buffer. -/
def embSegs (data : List Nat) : List PdfSeg := embSegsF data.length data

/-- A segment of the `compressJpegData` scan: a kept byte, or a deleted
metadata segment together with its declared (`2 + segmentLength`) size. -/
inductive JSeg where
  | keep : Nat → JSeg
  | del : List Nat → Nat → JSeg

/-- The original bytes a JPEG-scan segment covers. -/
def jsegOrig : JSeg → List Nat
  | .keep b => [b]
  | .del s _ => s

/-- The bytes a JPEG-scan segment keeps in the output. -/
def jsegKept : JSeg → List Nat
  | .keep b => [b]
  | .del _ _ => []

/-- The declared removal size a segment contributes to `bytesRemoved`. -/
def jsegNom : JSeg → Nat
  | .keep _ => 0
  | .del _ n => n

/-- Sum of the declared removal sizes. -/
def sumNom : List JSeg → Nat
  | [] => 0
  | s :: rest => jsegNom s + sumNom rest

/-- Validity of a deleted segment: at least 4 bytes present, marker `FF`
followed by `E1`/`FE`/`E2..EF` with the matching size threshold on the
declared length, nominal size `2 + declared length`, and actual bytes a
possibly truncated initial part of the nominal size. -/
def jsegValidB : JSeg → Bool
  | .keep _ => true
  | .del s n =>
    let m := s.getD 1 0
    let d := s.getD 2 0 * 256 + s.getD 3 0
    decide (4 ≤ s.length) && (s.getD 0 0 == 255) && (n == 2 + d) &&
      decide (s.length ≤ 2 + d) &&
      ((m == 225 && decide (10240 < d)) || (m == 254 && decide (1024 < d)) ||
        (decide (226 ≤ m) && decide (m ≤ 239) && decide (20480 < d)))

/-- The segmentation produced by the `compressJpegData` scan, with the same
recursion structure as `jpegScan`. -/
def jpegSegsF : Nat → List Nat → List JSeg
  | 0, _ => []
  | _ + 1, [] => []
  | fuel + 1, x :: xs =>
    if 4 ≤ (x :: xs).length then
      let m2 := (x :: xs).getD 1 0
      let segLen := (x :: xs).getD 2 0 * 256 + (x :: xs).getD 3 0
      if x = 255 ∧ m2 = 225 ∧ 10240 < segLen then
        .del ((x :: xs).take (2 + segLen)) (2 + segLen) ::
          jpegSegsF fuel ((x :: xs).drop (2 + segLen))
      else if x = 255 ∧ m2 = 254 ∧ 1024 < segLen then
        .del ((x :: xs).take (2 + segLen)) (2 + segLen) ::
          jpegSegsF fuel ((x :: xs).drop (2 + segLen))
      else if x = 255 ∧ 226 ≤ m2 ∧ m2 ≤ 239 ∧ 20480 < segLen then
        .del ((x :: xs).take (2 + segLen)) (2 + segLen) ::
          jpegSegsF fuel ((x :: xs).drop (2 + segLen))
      else .keep x :: jpegSegsF fuel xs
    else .keep x :: jpegSegsF fuel xs

/-- The segmentation of the `compressJpegData` scan of a whole buffer. -/
def jpegSegs (l : List Nat) : List JSeg := jpegSegsF l.length l

/-- Modelled from the claim text (not from the source): the JPEG metadata
scan that deletes only whole segments lying entirely inside the buffer and
counts only bytes actually removed. -/
def jpegScanSpecF : Nat → List Nat → List Nat × Nat
  | 0, l => (l, 0)
  | _ + 1, [] => ([], 0)
  | fuel + 1, x :: xs =>
    if 4 ≤ (x :: xs).length then
      let m2 := (x :: xs).getD 1 0
      let segLen := (x :: xs).getD 2 0 * 256 + (x :: xs).getD 3 0
      if x = 255 ∧ m2 = 225 ∧ 10240 < segLen ∧ 2 + segLen ≤ (x :: xs).length then
        let p := jpegScanSpecF fuel ((x :: xs).drop (2 + segLen))
        (p.1, p.2 + (2 + segLen))
      else if x = 255 ∧ m2 = 254 ∧ 1024 < segLen ∧ 2 + segLen ≤ (x :: xs).length then
        let p := jpegScanSpecF fuel ((x :: xs).drop (2 + segLen))
        (p.1, p.2 + (2 + segLen))
      else if x = 255 ∧ 226 ≤ m2 ∧ m2 ≤ 239 ∧ 20480 < segLen ∧
          2 + segLen ≤ (x :: xs).length then
        let p := jpegScanSpecF fuel ((x :: xs).drop (2 + segLen))
        (p.1, p.2 + (2 + segLen))
      else
        let p := jpegScanSpecF fuel xs
        (x :: p.1, p.2)
    else
      let p := jpegScanSpecF fuel xs
      (x :: p.1, p.2)

/-- The claim-side scan of a whole buffer. -/
def jpegScanSpec (l : List Nat) : List Nat × Nat := jpegScanSpecF l.length l

/-- Checked variant of `compressPngData`: the Go slice `pngData[:8]` at
main.go line 237 is the single unguarded access of the function (every later
chunk access is bounds-checked), so the function panics exactly when fewer
than 8 bytes are supplied. -/
def compressPngDataC (pngData : List Nat) : Option (List Nat) :=
  if 8 ≤ pngData.length then some (compressPngData pngData) else none

/-- Checked variant of the `compressEmbeddedImages` scan, threading the one
possible panic of `compressPngData` through the pipeline. -/
def embScanCF : Nat → List Nat → Option (List Nat)
  | 0, _ => some []
  | _ + 1, [] => some []
  | fuel + 1, x :: xs =>
    match jpegSpanLen (x :: xs) with
    | some e =>
      (embScanCF fuel ((x :: xs).drop e)).map (fun rest =>
        (if (compressJpegData ((x :: xs).take e)).length < e then
          compressJpegData ((x :: xs).take e)
        else (x :: xs).take e) ++ rest)
    | none =>
      match pngSpanLen (x :: xs) with
      | some e =>
        (compressPngDataC ((x :: xs).take e)).bind (fun cand =>
          (embScanCF fuel ((x :: xs).drop e)).map (fun rest =>
            (if cand.length < e then cand else (x :: xs).take e) ++ rest))
      | none => (embScanCF fuel xs).map (fun rest => x :: rest)

/-- Checked variant of `compressPDFData`: `none` would mark an unguarded
buffer access anywhere in the pipeline. -/
def compressPDFDataC (inputBytes : List Nat) : Option (List Nat) :=
  if isPdf inputBytes = false then some inputBytes
  else
    (embScanCF inputBytes.length inputBytes).map (fun c1 =>
      let c3 := optimizeStreams (removeMetadataBinary c1)
      if 20 * c3.length < 19 * inputBytes.length then c3 else inputBytes)

/-- Boolean test that a list of progress values is non-decreasing. -/
def nondecB : List Nat → Bool
  | [] => true
  | [_] => true
  | a :: b :: t => decide (a ≤ b) && nondecB (b :: t)

/-! Basic facts about the byte-string search primitives. -/

theorem isPrefB_iff (p : List Nat) : ∀ l, isPrefB p l = true ↔ ∃ v, l = p ++ v := by
  induction p with
  | nil => intro l; simp [isPrefB]
  | cons a as ih =>
    intro l
    cases l with
    | nil =>
      simp only [isPrefB]
      constructor
      · intro h; exact absurd h (by simp)
      · rintro ⟨v, hv⟩; exact absurd hv (by simp)
    | cons b bs =>
      simp only [isPrefB, Bool.and_eq_true, beq_iff_eq, ih bs]
      constructor
      · rintro ⟨rfl, v, rfl⟩; exact ⟨v, rfl⟩
      · rintro ⟨v, hv⟩
        rw [List.cons_append] at hv
        injection hv with h1 h2
        exact ⟨h1.symm, v, h2⟩

theorem isPrefB_length {p l : List Nat} (h : isPrefB p l = true) : p.length ≤ l.length := by
  rcases (isPrefB_iff p l).1 h with ⟨v, rfl⟩
  simp

theorem idxOfSeq_some {p : List Nat} :
    ∀ {l : List Nat} {k : Nat}, idxOfSeq p l = some k →
      ∃ u v, l = u ++ p ++ v ∧ u.length = k := by
  intro l
  induction l with
  | nil =>
    intro k h
    simp only [idxOfSeq] at h
    split at h
    · rcases (isPrefB_iff p []).1 (by assumption) with ⟨v, hv⟩
      injection h with h0
      exact ⟨[], v, by simpa using hv, by simpa using h0⟩
    · exact absurd h (by simp)
  | cons x xs ih =>
    intro k h
    simp only [idxOfSeq] at h
    split at h
    · rcases (isPrefB_iff p (x :: xs)).1 (by assumption) with ⟨v, hv⟩
      injection h with h0
      exact ⟨[], v, by simpa using hv, by simpa using h0⟩
    · rcases Option.map_eq_some'.1 h with ⟨k0, hk0, rfl⟩
      rcases ih hk0 with ⟨u, v, rfl, rfl⟩
      exact ⟨x :: u, v, rfl, by simp⟩

theorem idxOfSeq_of_decomp {p : List Nat} :
    ∀ {u v : List Nat}, (idxOfSeq p (u ++ p ++ v)).isSome = true := by
  intro u
  induction u with
  | nil =>
    intro v
    have hpref : isPrefB p (p ++ v) = true := (isPrefB_iff p (p ++ v)).2 ⟨v, rfl⟩
    rw [List.nil_append]
    cases hl : p ++ v with
    | nil => rw [hl] at hpref; simp [idxOfSeq, hpref]
    | cons y ys => rw [hl] at hpref; simp [idxOfSeq, hpref]
  | cons a as ih =>
    intro v
    rw [List.cons_append, List.cons_append]
    simp only [idxOfSeq]
    split
    · simp
    · simpa using ih (v := v)

theorem hasSeq_iff (p l : List Nat) : hasSeq p l = true ↔ ∃ u v, l = u ++ p ++ v := by
  constructor
  · intro h
    rcases Option.isSome_iff_exists.1 h with ⟨k, hk⟩
    rcases idxOfSeq_some hk with ⟨u, v, hl, _⟩
    exact ⟨u, v, hl⟩
  · rintro ⟨u, v, rfl⟩
    exact idxOfSeq_of_decomp

theorem hasSeq_nil {p : List Nat} (hp : p ≠ []) : hasSeq p [] = false := by
  cases p with
  | nil => exact absurd rfl hp
  | cons a as => simp [hasSeq, idxOfSeq, isPrefB]

theorem hasSeq_tail {p : List Nat} {x : Nat} {xs : List Nat} (h : hasSeq p xs = true) :
    hasSeq p (x :: xs) = true := by
  rcases (hasSeq_iff p xs).1 h with ⟨u, v, rfl⟩
  exact (hasSeq_iff p _).2 ⟨x :: u, v, rfl⟩

theorem hasSeq_tail_elim {p : List Nat} {x : Nat} {xs : List Nat}
    (h : hasSeq p (x :: xs) = true) (hnp : isPrefB p (x :: xs) = false) :
    hasSeq p xs = true := by
  simp only [hasSeq, idxOfSeq, hnp, Bool.false_eq_true, if_false] at h
  simpa [hasSeq] using h

theorem idxOfSeq_bound {p l : List Nat} {k : Nat} (h : idxOfSeq p l = some k) :
    k + p.length ≤ l.length := by
  rcases idxOfSeq_some h with ⟨u, v, rfl, rfl⟩
  simp

theorem hasSeq_take {p l : List Nat} {n : Nat} (h : hasSeq p (l.take n) = true) :
    hasSeq p l = true := by
  rcases (hasSeq_iff p (l.take n)).1 h with ⟨u, v, huv⟩
  refine (hasSeq_iff p l).2 ⟨u, v ++ l.drop n, ?_⟩
  conv_lhs => rw [← List.take_append_drop n l, huv]
  simp

theorem hasSeq_drop {p l : List Nat} {n : Nat} (h : hasSeq p (l.drop n) = true) :
    hasSeq p l = true := by
  rcases (hasSeq_iff p (l.drop n)).1 h with ⟨u, v, huv⟩
  refine (hasSeq_iff p l).2 ⟨l.take n ++ u, v, ?_⟩
  conv_lhs => rw [← List.take_append_drop n l, huv]
  simp

/-! Facts about the replace and collapse loops of `optimizeStreams`. -/

theorem replaceAllF_le {p r : List Nat} (hr : r.length ≤ p.length) :
    ∀ (fuel : Nat) (l : List Nat), (replaceAllSeqF p r fuel l).length ≤ l.length := by
  intro fuel
  induction fuel with
  | zero => intro l; exact Nat.le_refl _
  | succ n ih =>
    intro l
    cases l with
    | nil => simp [replaceAllSeqF]
    | cons x xs =>
      rw [replaceAllSeqF]
      split
      · next hcond =>
        have hple := isPrefB_length hcond.2
        have hrec := ih (List.drop (p.length - 1) xs)
        simp only [List.length_append, List.length_cons, List.length_drop] at *
        omega
      · next hcond =>
        have hrec := ih xs
        simp only [List.length_cons]
        omega

theorem replaceAll_le {p r : List Nat} (hr : r.length ≤ p.length) :
    ∀ l, (replaceAllSeq p r l).length ≤ l.length :=
  fun l => replaceAllF_le hr l.length l

theorem replaceAllF_lt {p r : List Nat} (hr : r.length < p.length) :
    ∀ (fuel : Nat) (l : List Nat), l.length ≤ fuel → hasSeq p l = true →
      (replaceAllSeqF p r fuel l).length < l.length := by
  have hp : p ≠ [] := by
    intro hp0; rw [hp0] at hr; simp at hr
  intro fuel
  induction fuel with
  | zero =>
    intro l hl hs
    have hnil : l = [] := List.length_eq_zero.1 (Nat.le_zero.1 hl)
    subst hnil
    rw [hasSeq_nil hp] at hs
    cases hs
  | succ n ih =>
    intro l hl hs
    cases l with
    | nil => rw [hasSeq_nil hp] at hs; cases hs
    | cons x xs =>
      rw [replaceAllSeqF]
      split
      · next hcond =>
        have hple := isPrefB_length hcond.2
        have hrec := replaceAllF_le (Nat.le_of_lt hr) n (List.drop (p.length - 1) xs)
        simp only [List.length_append, List.length_cons, List.length_drop] at *
        omega
      · next hcond =>
        have hp0 : 0 < p.length := List.length_pos.2 hp
        have hpre : isPrefB p (x :: xs) = false := by
          cases hb : isPrefB p (x :: xs) with
          | false => rfl
          | true => exact absurd ⟨hp0, hb⟩ hcond
        have hs2 := hasSeq_tail_elim hs hpre
        have hrec := ih xs (by simp only [List.length_cons] at hl; omega) hs2
        simp only [List.length_cons]
        omega

theorem replaceAll_lt {p r : List Nat} (hr : r.length < p.length) :
    ∀ l, hasSeq p l = true → (replaceAllSeq p r l).length < l.length :=
  fun l hs => replaceAllF_lt hr l.length l (Nat.le_refl _) hs

theorem shrinkF_no {p r : List Nat} (hr : r.length < p.length) :
    ∀ (fuel : Nat) (l : List Nat), l.length ≤ fuel →
      hasSeq p (shrinkLoopF p r fuel l) = false := by
  have hp : p ≠ [] := by
    intro hp0; rw [hp0] at hr; simp at hr
  intro fuel
  induction fuel with
  | zero =>
    intro l hl
    have hnil : l = [] := List.length_eq_zero.1 (Nat.le_zero.1 hl)
    subst hnil
    simpa [shrinkLoopF] using hasSeq_nil hp
  | succ n ih =>
    intro l hl
    rw [shrinkLoopF]
    split
    · next hcond =>
      refine ih _ ?_
      have := replaceAll_lt hr l hcond
      omega
    · next hcond =>
      cases hb : hasSeq p l with
      | false => rfl
      | true => exact absurd hb hcond

theorem shrink_no {p r : List Nat} (hr : r.length < p.length) (l : List Nat) :
    hasSeq p (shrinkLoop p r l) = false :=
  shrinkF_no hr l.length l le_rfl

theorem shrinkF_le {p r : List Nat} (hr : r.length ≤ p.length) :
    ∀ (fuel : Nat) (l : List Nat), (shrinkLoopF p r fuel l).length ≤ l.length := by
  intro fuel
  induction fuel with
  | zero => intro l; simp [shrinkLoopF]
  | succ n ih =>
    intro l
    rw [shrinkLoopF]
    split
    · exact Nat.le_trans (ih _) (replaceAll_le hr l)
    · exact Nat.le_refl _

theorem optimizeStreams_le (data : List Nat) :
    (optimizeStreams data).length ≤ data.length := by
  unfold optimizeStreams
  refine Nat.le_trans (shrinkF_le (by simp) _ _) ?_
  refine Nat.le_trans (replaceAll_le (by simp) _) ?_
  refine Nat.le_trans (replaceAll_le (by simp) _) ?_
  refine Nat.le_trans (shrinkF_le (by simp) _ _) ?_
  exact Nat.le_trans (replaceAll_le (by simp) _) (replaceAll_le (by simp) _)

/-! Facts about the metadata removal of `removeMetadataBinary`. -/

theorem findValueEndF_ge (content : List Nat) :
    ∀ (fuel e : Nat), e ≤ findValueEndF content fuel e := by
  intro fuel
  induction fuel with
  | zero => intro e; exact Nat.le_refl _
  | succ n ih =>
    intro e
    rw [findValueEndF]
    split
    · split
      · exact Nat.le_trans (by omega) (ih (e + 1))
      · exact Nat.le_refl _
    · exact Nat.le_refl _

theorem findValueEnd_ge (content : List Nat) : ∀ e, e ≤ findValueEnd content e :=
  fun e => findValueEndF_ge content _ e

theorem findValueEndF_le {content : List Nat} :
    ∀ (fuel e : Nat), e ≤ content.length → findValueEndF content fuel e ≤ content.length := by
  intro fuel
  induction fuel with
  | zero => intro e he; exact he
  | succ n ih =>
    intro e he
    rw [findValueEndF]
    split
    · next hlt =>
      split
      · exact ih (e + 1) (by omega)
      · exact he
    · exact he

theorem findValueEnd_le {content : List Nat} : ∀ {e : Nat}, e ≤ content.length →
    findValueEnd content e ≤ content.length :=
  fun he => findValueEndF_le _ _ he

theorem findValueEndF_stop (content : List Nat) :
    ∀ (fuel e : Nat), content.length - e ≤ fuel →
      content.length ≤ findValueEndF content fuel e ∨
      content.getD (findValueEndF content fuel e) 0 = 47 ∨
      isPrefB [62, 62] (content.drop (findValueEndF content fuel e)) = true := by
  intro fuel
  induction fuel with
  | zero =>
    intro e hd
    left
    simpa [findValueEndF] using by omega
  | succ n ih =>
    intro e hd
    rw [findValueEndF]
    split
    · next hlt =>
      split
      · exact ih (e + 1) (by omega)
      · next hcond =>
        rcases Decidable.not_and_iff_or_not.1 hcond with hc | hc
        · right; left; exact Decidable.not_not.1 hc
        · right; right
          cases hb : isPrefB [62, 62] (content.drop e) with
          | false => exact absurd hb hc
          | true => rfl
    · next hlt => left; omega

theorem findValueEnd_stop (content : List Nat) : ∀ e,
    content.length ≤ findValueEnd content e ∨
    content.getD (findValueEnd content e) 0 = 47 ∨
    isPrefB [62, 62] (content.drop (findValueEnd content e)) = true :=
  fun e => findValueEndF_stop content _ e (Nat.le_refl _)

theorem removeOnce_le {p content c : List Nat}
    (h : removeOncePat p content = some c) : c.length ≤ content.length := by
  unfold removeOncePat at h
  rcases hidx : idxOfSeq p content with _ | s
  · rw [hidx] at h; cases h
  · rw [hidx] at h
    injection h with hc
    subst hc
    have hb := idxOfSeq_bound hidx
    have hge := findValueEnd_ge content (s + p.length)
    simp only [List.length_append, List.length_take, List.length_drop]
    omega

theorem removeOnce_lt {p content c : List Nat} (hp : p ≠ [])
    (h : removeOncePat p content = some c) : c.length < content.length := by
  unfold removeOncePat at h
  rcases hidx : idxOfSeq p content with _ | s
  · rw [hidx] at h; cases h
  · rw [hidx] at h
    injection h with hc
    subst hc
    have hb := idxOfSeq_bound hidx
    have hge := findValueEnd_ge content (s + p.length)
    have hp0 : 0 < p.length := List.length_pos.2 hp
    simp only [List.length_append, List.length_take, List.length_drop]
    omega

theorem removeOnce_none {p content : List Nat}
    (h : removeOncePat p content = none) : hasSeq p content = false := by
  unfold removeOncePat at h
  rcases hidx : idxOfSeq p content with _ | s
  · simp [hasSeq, hidx]
  · rw [hidx] at h; cases h

theorem occ_append_split {p a s : List Nat} (hp : p ≠ [])
    (htail : ∀ c ∈ p.tail, c ≠ 47 ∧ c ≠ 62)
    (hhead : ∀ c, s.head? = some c → c = 47 ∨ c = 62)
    (h : hasSeq p (a ++ s) = true) : hasSeq p a = true ∨ hasSeq p s = true := by
  rcases (hasSeq_iff p (a ++ s)).1 h with ⟨u, v, huv⟩
  rw [List.append_assoc] at huv
  rcases List.append_eq_append_iff.1 huv with ⟨w, hw1, hw2⟩ | ⟨w, hw1, hw2⟩
  · right
    refine (hasSeq_iff p s).2 ⟨w, v, ?_⟩
    rw [hw2, List.append_assoc]
  · rcases List.append_eq_append_iff.1 hw2 with ⟨t, ht1, ht2⟩ | ⟨t, ht1, ht2⟩
    · left
      refine (hasSeq_iff p a).2 ⟨u, t, ?_⟩
      rw [hw1, ht1, List.append_assoc]
    · cases t with
      | nil =>
        left
        rw [List.append_nil] at ht1
        refine (hasSeq_iff p a).2 ⟨u, [], ?_⟩
        rw [hw1, ht1.symm, List.append_nil]
      | cons c ts =>
        have hc : c = 47 ∨ c = 62 := hhead c (by rw [ht2]; rfl)
        cases w with
        | nil =>
          right
          rw [List.nil_append] at ht1
          refine (hasSeq_iff p s).2 ⟨[], v, ?_⟩
          rw [ht2, ht1, List.nil_append]
        | cons d ds =>
          exfalso
          have hmem : c ∈ p.tail := by
            rw [ht1]
            simp
          rcases htail c hmem with ⟨h47, h62⟩
          rcases hc with rfl | rfl
          · exact h47 rfl
          · exact h62 rfl

theorem removeOnce_preserve {p q content c : List Nat}
    (hp : p ≠ []) (htail : ∀ b ∈ p.tail, b ≠ 47 ∧ b ≠ 62)
    (hq : removeOncePat q content = some c) (h : hasSeq p content = false) :
    hasSeq p c = false := by
  unfold removeOncePat at hq
  rcases hidx : idxOfSeq q content with _ | s
  · rw [hidx] at hq; cases hq
  · rw [hidx] at hq
    injection hq with hc
    subst hc
    have hhead : ∀ b, (content.drop (findValueEnd content (s + q.length))).head? = some b →
        b = 47 ∨ b = 62 := by
      intro b hb
      rcases findValueEnd_stop content (s + q.length) with hst | hst | hst
      · rw [List.drop_eq_nil_of_le hst] at hb
        cases hb
      · left
        rw [List.head?_drop] at hb
        rw [List.getD_eq_getElem?_getD, hb] at hst
        simpa using hst
      · right
        rcases (isPrefB_iff [62, 62] _).1 hst with ⟨v, hv⟩
        rw [hv] at hb
        injection hb with hy
        exact hy.symm
    cases hx : hasSeq p (content.take s ++ content.drop (findValueEnd content (s + q.length))) with
    | false => rfl
    | true =>
      exfalso
      rcases occ_append_split hp htail hhead hx with h1 | h2
      · have := hasSeq_take h1
        rw [this] at h
        cases h
      · have := hasSeq_drop h2
        rw [this] at h
        cases h

theorem removeAllF_le (p : List Nat) :
    ∀ (fuel : Nat) (content : List Nat), (removeAllPatF p fuel content).length ≤ content.length := by
  intro fuel
  induction fuel with
  | zero => intro content; simp [removeAllPatF]
  | succ n ih =>
    intro content
    rw [removeAllPatF]
    rcases hro : removeOncePat p content with _ | c
    · exact Nat.le_refl _
    · exact Nat.le_trans (ih c) (removeOnce_le hro)

theorem removeAllF_exit {p : List Nat} (hp : p ≠ []) :
    ∀ (fuel : Nat) (content : List Nat), content.length ≤ fuel →
      hasSeq p (removeAllPatF p fuel content) = false := by
  intro fuel
  induction fuel with
  | zero =>
    intro content hl
    have hnil : content = [] := List.length_eq_zero.1 (Nat.le_zero.1 hl)
    subst hnil
    simpa [removeAllPatF] using hasSeq_nil hp
  | succ n ih =>
    intro content hl
    rw [removeAllPatF]
    rcases hro : removeOncePat p content with _ | c
    · exact removeOnce_none hro
    · refine ih c ?_
      have := removeOnce_lt hp hro
      omega

theorem removeAllF_preserve {p q : List Nat}
    (hp : p ≠ []) (htail : ∀ b ∈ p.tail, b ≠ 47 ∧ b ≠ 62) :
    ∀ (fuel : Nat) (content : List Nat), hasSeq p content = false →
      hasSeq p (removeAllPatF q fuel content) = false := by
  intro fuel
  induction fuel with
  | zero => intro content h; simpa [removeAllPatF] using h
  | succ n ih =>
    intro content h
    rw [removeAllPatF]
    rcases hro : removeOncePat q content with _ | c
    · exact h
    · exact ih c (removeOnce_preserve hp htail hro h)

theorem foldl_removeAll_preserve {p : List Nat}
    (hp : p ≠ []) (htail : ∀ b ∈ p.tail, b ≠ 47 ∧ b ≠ 62) :
    ∀ (ps : List (List Nat)) (content : List Nat), hasSeq p content = false →
      hasSeq p (ps.foldl (fun c q => removeAllPat q c) content) = false := by
  intro ps
  induction ps with
  | nil => intro content h; simpa using h
  | cons q qs ih =>
    intro content h
    exact ih _ (removeAllF_preserve hp htail _ _ h)

theorem foldl_removeAll_no {p : List Nat}
    (hp : p ≠ []) (htail : ∀ b ∈ p.tail, b ≠ 47 ∧ b ≠ 62) :
    ∀ (ps : List (List Nat)) (content : List Nat), p ∈ ps →
      hasSeq p (ps.foldl (fun c q => removeAllPat q c) content) = false := by
  intro ps
  induction ps with
  | nil => intro content h; cases h
  | cons q qs ih =>
    intro content hmem
    rcases List.mem_cons.1 hmem with rfl | hmem2
    · exact foldl_removeAll_preserve hp htail qs _
        (removeAllF_exit hp content.length content (Nat.le_refl _))
    · exact ih _ hmem2

theorem foldl_removeAll_le :
    ∀ (ps : List (List Nat)) (content : List Nat),
      (ps.foldl (fun c q => removeAllPat q c) content).length ≤ content.length := by
  intro ps
  induction ps with
  | nil => intro content; simp
  | cons q qs ih =>
    intro content
    exact Nat.le_trans (ih _) (removeAllF_le q content.length content)

/-! Facts about the embedded-image scan of `compressEmbeddedImages`. -/

theorem getD_take {l : List Nat} {n k : Nat} (h : k < n) (d : Nat) :
    (l.take n).getD k d = l.getD k d := by
  simp [List.getD_eq_getElem?_getD, List.getElem?_take, h]

theorem findJpegEndF_bound {l : List Nat} :
    ∀ (fuel : Nat) {j e : Nat}, findJpegEndFromF l fuel j = some e →
      j + 2 ≤ e ∧ e ≤ l.length := by
  intro fuel
  induction fuel with
  | zero => intro j e h; cases h
  | succ n ih =>
    intro j e h
    rw [findJpegEndFromF] at h
    split at h
    · next hj =>
      split at h
      · injection h with he
        constructor <;> omega
      · have hrec := ih h
        constructor <;> omega
    · cases h

theorem findJpegEnd_bound {l : List Nat} {j e : Nat}
    (h : findJpegEndFrom l j = some e) : j + 2 ≤ e ∧ e ≤ l.length :=
  findJpegEndF_bound (l.length - j) h

theorem findJpegEndF_irrel {l : List Nat} :
    ∀ (fuel fuel' j : Nat), l.length - j ≤ fuel → l.length - j ≤ fuel' →
      findJpegEndFromF l fuel j = findJpegEndFromF l fuel' j := by
  intro fuel
  induction fuel with
  | zero =>
    intro fuel' j h1 h2
    cases fuel' with
    | zero => rfl
    | succ m =>
      rw [findJpegEndFromF, findJpegEndFromF, if_neg (by omega)]
  | succ n ih =>
    intro fuel' j h1 h2
    cases fuel' with
    | zero =>
      rw [findJpegEndFromF, findJpegEndFromF, if_neg (by omega)]
    | succ m =>
      by_cases hj : j + 1 < l.length
      · rw [findJpegEndFromF, findJpegEndFromF, if_pos hj, if_pos hj]
        by_cases hbytes : l.getD j 0 = 255 ∧ l.getD (j + 1) 0 = 217
        · rw [if_pos hbytes, if_pos hbytes]
        · rw [if_neg hbytes, if_neg hbytes]
          exact ih m (j + 1) (by omega) (by omega)
      · rw [findJpegEndFromF, findJpegEndFromF, if_neg hj, if_neg hj]

theorem findJpegEndF_take {l : List Nat} :
    ∀ (fuel : Nat) {j e m : Nat}, findJpegEndFromF l fuel j = some e → e ≤ m →
      findJpegEndFromF (l.take m) fuel j = some e := by
  intro fuel
  induction fuel with
  | zero => intro j e m h hm; cases h
  | succ n ih =>
    intro j e m h hm
    have hb0 := findJpegEndF_bound (n + 1) h
    rw [findJpegEndFromF] at h
    split at h
    · next hj =>
      rw [findJpegEndFromF, if_pos (by simp only [List.length_take]; omega)]
      split at h
      · next hbytes =>
        injection h with he
        rw [if_pos ?_]
        · rw [he]
        · rw [getD_take (show j < m by omega) 0, getD_take (show j + 1 < m by omega) 0]
          exact hbytes
      · next hbytes =>
        rw [if_neg ?_]
        · exact ih h hm
        · rw [getD_take (show j < m by omega) 0, getD_take (show j + 1 < m by omega) 0]
          exact hbytes
    · cases h

theorem findJpegEnd_take {l : List Nat} {j e m : Nat}
    (h : findJpegEndFrom l j = some e) (hm : e ≤ m) :
    findJpegEndFrom (l.take m) j = some e := by
  have hF := findJpegEndF_take (l.length - j) h hm
  unfold findJpegEndFrom
  rw [findJpegEndF_irrel ((l.take m).length - j) (l.length - j) j (Nat.le_refl _)
    (by simp only [List.length_take]; omega)]
  exact hF

theorem pair_hasSeq : ∀ (k : Nat) (l : List Nat), k + 1 < l.length →
    l.getD k 0 = 255 → l.getD (k + 1) 0 = 217 → hasSeq [255, 217] l = true := by
  intro k
  induction k with
  | zero =>
    intro l h1 h2 h3
    cases l with
    | nil => simp at h1
    | cons a as =>
      cases as with
      | nil => simp at h1
      | cons b bs =>
        rw [List.getD_cons_zero] at h2
        rw [List.getD_cons_succ, List.getD_cons_zero] at h3
        refine (hasSeq_iff _ _).2 ⟨[], bs, ?_⟩
        rw [h2, h3]
        rfl
  | succ k ih =>
    intro l h1 h2 h3
    cases l with
    | nil => simp at h1
    | cons a as =>
      rw [List.getD_cons_succ] at h2
      rw [List.getD_cons_succ] at h3
      exact hasSeq_tail (ih as (by simp at h1; omega) h2 h3)

theorem findJpegEndF_none {l : List Nat} (h : hasSeq [255, 217] l = false) :
    ∀ (fuel j : Nat), findJpegEndFromF l fuel j = none := by
  intro fuel
  induction fuel with
  | zero => intro j; rfl
  | succ n ih =>
    intro j
    rw [findJpegEndFromF]
    split
    · next hj =>
      rw [if_neg ?_]
      · exact ih (j + 1)
      · rintro ⟨hb1, hb2⟩
        rw [pair_hasSeq j l hj hb1 hb2] at h
        cases h
    · rfl

theorem findJpegEnd_none {l : List Nat} (h : hasSeq [255, 217] l = false) :
    ∀ j, findJpegEndFrom l j = none :=
  fun j => findJpegEndF_none h _ j

theorem findPngEndF_bound {l : List Nat} :
    ∀ (fuel : Nat) {j e : Nat}, findPngEndFromF l fuel j = some e →
      j + 8 ≤ e ∧ e ≤ l.length := by
  intro fuel
  induction fuel with
  | zero => intro j e h; cases h
  | succ n ih =>
    intro j e h
    rw [findPngEndFromF] at h
    split at h
    · next hj =>
      split at h
      · injection h with he
        constructor <;> omega
      · have hrec := ih h
        constructor <;> omega
    · cases h

theorem findPngEnd_bound {l : List Nat} {j e : Nat}
    (h : findPngEndFrom l j = some e) : j + 8 ≤ e ∧ e ≤ l.length :=
  findPngEndF_bound (l.length - j) h

theorem findPngEndF_irrel {l : List Nat} :
    ∀ (fuel fuel' j : Nat), l.length - j ≤ fuel → l.length - j ≤ fuel' →
      findPngEndFromF l fuel j = findPngEndFromF l fuel' j := by
  intro fuel
  induction fuel with
  | zero =>
    intro fuel' j h1 h2
    cases fuel' with
    | zero => rfl
    | succ m =>
      rw [findPngEndFromF, findPngEndFromF, if_neg (by omega)]
  | succ n ih =>
    intro fuel' j h1 h2
    cases fuel' with
    | zero =>
      rw [findPngEndFromF, findPngEndFromF, if_neg (by omega)]
    | succ m =>
      by_cases hj : j + 7 < l.length
      · rw [findPngEndFromF, findPngEndFromF, if_pos hj, if_pos hj]
        by_cases hbytes : l.getD j 0 = 73 ∧ l.getD (j + 1) 0 = 69 ∧ l.getD (j + 2) 0 = 78 ∧
            l.getD (j + 3) 0 = 68
        · rw [if_pos hbytes, if_pos hbytes]
        · rw [if_neg hbytes, if_neg hbytes]
          exact ih m (j + 1) (by omega) (by omega)
      · rw [findPngEndFromF, findPngEndFromF, if_neg hj, if_neg hj]

theorem findPngEndF_take {l : List Nat} :
    ∀ (fuel : Nat) {j e m : Nat}, findPngEndFromF l fuel j = some e → e ≤ m →
      findPngEndFromF (l.take m) fuel j = some e := by
  intro fuel
  induction fuel with
  | zero => intro j e m h hm; cases h
  | succ n ih =>
    intro j e m h hm
    have hb0 := findPngEndF_bound (n + 1) h
    rw [findPngEndFromF] at h
    split at h
    · next hj =>
      rw [findPngEndFromF, if_pos (by simp only [List.length_take]; omega)]
      split at h
      · next hbytes =>
        injection h with he
        rw [if_pos ?_]
        · rw [he]
        · rw [getD_take (show j < m by omega) 0, getD_take (show j + 1 < m by omega) 0,
            getD_take (show j + 2 < m by omega) 0, getD_take (show j + 3 < m by omega) 0]
          exact hbytes
      · next hbytes =>
        rw [if_neg ?_]
        · exact ih h hm
        · rw [getD_take (show j < m by omega) 0, getD_take (show j + 1 < m by omega) 0,
            getD_take (show j + 2 < m by omega) 0, getD_take (show j + 3 < m by omega) 0]
          exact hbytes
    · cases h

theorem findPngEnd_take {l : List Nat} {j e m : Nat}
    (h : findPngEndFrom l j = some e) (hm : e ≤ m) :
    findPngEndFrom (l.take m) j = some e := by
  have hF := findPngEndF_take (l.length - j) h hm
  unfold findPngEndFrom
  rw [findPngEndF_irrel ((l.take m).length - j) (l.length - j) j (Nat.le_refl _)
    (by simp only [List.length_take]; omega)]
  exact hF

theorem quad_hasSeq : ∀ (k : Nat) (l : List Nat), k + 3 < l.length →
    l.getD k 0 = 73 → l.getD (k + 1) 0 = 69 → l.getD (k + 2) 0 = 78 →
    l.getD (k + 3) 0 = 68 → hasSeq [73, 69, 78, 68] l = true := by
  intro k
  induction k with
  | zero =>
    intro l h1 h2 h3 h4 h5
    match l, h1 with
    | a :: b :: c :: d :: t, _ =>
      rw [List.getD_cons_zero] at h2
      rw [List.getD_cons_succ, List.getD_cons_zero] at h3
      rw [List.getD_cons_succ, List.getD_cons_succ, List.getD_cons_zero] at h4
      rw [List.getD_cons_succ, List.getD_cons_succ, List.getD_cons_succ,
        List.getD_cons_zero] at h5
      refine (hasSeq_iff _ _).2 ⟨[], t, ?_⟩
      rw [h2, h3, h4, h5]
      rfl
  | succ k ih =>
    intro l h1 h2 h3 h4 h5
    cases l with
    | nil => simp at h1
    | cons a as =>
      rw [List.getD_cons_succ] at h2 h3 h4 h5
      exact hasSeq_tail (ih as (by simp at h1; omega) h2 h3 h4 h5)

theorem findPngEndF_none {l : List Nat} (h : hasSeq [73, 69, 78, 68] l = false) :
    ∀ (fuel j : Nat), findPngEndFromF l fuel j = none := by
  intro fuel
  induction fuel with
  | zero => intro j; rfl
  | succ n ih =>
    intro j
    rw [findPngEndFromF]
    split
    · next hj =>
      rw [if_neg ?_]
      · exact ih (j + 1)
      · rintro ⟨hb1, hb2, hb3, hb4⟩
        rw [quad_hasSeq j l (by omega) hb1 hb2 hb3 hb4] at h
        cases h
    · rfl

theorem findPngEnd_none {l : List Nat} (h : hasSeq [73, 69, 78, 68] l = false) :
    ∀ j, findPngEndFrom l j = none :=
  fun j => findPngEndF_none h _ j

theorem jpegSpanLen_facts {l : List Nat} {e : Nat} (h : jpegSpanLen l = some e) :
    1000 < e ∧ e ≤ l.length ∧ findJpegEndFrom l 2 = some e ∧ 2 < l.length ∧
    l.getD 0 0 = 255 ∧ l.getD 1 0 = 216 := by
  rcases hf : findJpegEndFrom l 2 with _ | e0
  · simp only [jpegSpanLen, hf] at h
    exact absurd h (by simp)
  · simp only [jpegSpanLen, hf] at h
    by_cases hc : 2 < l.length ∧ l.getD 0 0 = 255 ∧ l.getD 1 0 = 216 ∧ 1000 < e0
    · rw [if_pos hc] at h
      injection h with he
      subst he
      have hb := findJpegEnd_bound hf
      exact ⟨hc.2.2.2, hb.2, rfl, hc.1, hc.2.1, hc.2.2.1⟩
    · rw [if_neg hc] at h
      cases h

theorem pngSpanLen_facts {l : List Nat} {e : Nat} (h : pngSpanLen l = some e) :
    1000 < e ∧ e ≤ l.length ∧ findPngEndFrom l 8 = some e ∧ 7 < l.length ∧
    l.getD 0 0 = 137 ∧ l.getD 1 0 = 80 ∧ l.getD 2 0 = 78 ∧ l.getD 3 0 = 71 := by
  rcases hf : findPngEndFrom l 8 with _ | e0
  · simp only [pngSpanLen, hf] at h
    exact absurd h (by simp)
  · simp only [pngSpanLen, hf] at h
    by_cases hc : 7 < l.length ∧ l.getD 0 0 = 137 ∧ l.getD 1 0 = 80 ∧ l.getD 2 0 = 78 ∧
        l.getD 3 0 = 71 ∧ 1000 < e0
    · rw [if_pos hc] at h
      injection h with he
      subst he
      have hb := findPngEnd_bound hf
      exact ⟨hc.2.2.2.2.2, hb.2, rfl, hc.1, hc.2.1, hc.2.2.1, hc.2.2.2.1, hc.2.2.2.2.1⟩
    · rw [if_neg hc] at h
      cases h

theorem jpegSpanLen_none_of {l : List Nat} (h : hasSeq [255, 217] l = false) :
    jpegSpanLen l = none := by
  unfold jpegSpanLen
  rw [findJpegEnd_none h 2]

theorem pngSpanLen_none_of {l : List Nat} (h : hasSeq [73, 69, 78, 68] l = false) :
    pngSpanLen l = none := by
  unfold pngSpanLen
  rw [findPngEnd_none h 8]

theorem hasSeq_tail_false {p : List Nat} {x : Nat} {xs : List Nat}
    (h : hasSeq p (x :: xs) = false) : hasSeq p xs = false := by
  cases hb : hasSeq p xs with
  | false => rfl
  | true =>
    rw [hasSeq_tail hb] at h
    cases h

theorem embScanF_id : ∀ (fuel : Nat) (l : List Nat), l.length ≤ fuel →
    hasSeq [255, 217] l = false → hasSeq [73, 69, 78, 68] l = false →
    embScanF fuel l = l := by
  intro fuel
  induction fuel with
  | zero =>
    intro l hl _ _
    have hnil : l = [] := List.length_eq_zero.1 (Nat.le_zero.1 hl)
    subst hnil
    rfl
  | succ n ih =>
    intro l hl h1 h2
    cases l with
    | nil => rfl
    | cons x xs =>
      simp only [embScanF, jpegSpanLen_none_of h1, pngSpanLen_none_of h2]
      rw [ih xs (by simp only [List.length_cons] at hl; omega)
        (hasSeq_tail_false h1) (hasSeq_tail_false h2)]

theorem embScanCF_eq : ∀ (fuel : Nat) (l : List Nat),
    embScanCF fuel l = some (embScanF fuel l) := by
  intro fuel
  induction fuel with
  | zero => intro l; rfl
  | succ n ih =>
    intro l
    cases l with
    | nil => rfl
    | cons x xs =>
      rcases hj : jpegSpanLen (x :: xs) with _ | e
      · rcases hpg : pngSpanLen (x :: xs) with _ | e
        · simp only [embScanCF, embScanF, hj, hpg, ih]
          rfl
        · have hf := pngSpanLen_facts hpg
          have hlen : ((x :: xs).take e).length = e := by
            simp only [List.length_take]
            omega
          simp only [embScanCF, embScanF, hj, hpg, ih, compressPngDataC,
            if_pos (show 8 ≤ ((x :: xs).take e).length by omega)]
          rfl
      · simp only [embScanCF, embScanF, hj, ih]
        rfl

theorem embSegsF_spec : ∀ (fuel : Nat) (l : List Nat), l.length ≤ fuel →
    embScanF fuel l = flatCat segOut (embSegsF fuel l) ∧
    flatCat segOrig (embSegsF fuel l) = l ∧
    (embSegsF fuel l).all segValidB = true := by
  intro fuel
  induction fuel with
  | zero =>
    intro l hl
    have hnil : l = [] := List.length_eq_zero.1 (Nat.le_zero.1 hl)
    subst hnil
    exact ⟨rfl, rfl, rfl⟩
  | succ n ih =>
    intro l hl
    cases l with
    | nil => exact ⟨rfl, rfl, rfl⟩
    | cons x xs =>
      rcases hj : jpegSpanLen (x :: xs) with _ | e
      · rcases hpg : pngSpanLen (x :: xs) with _ | e
        · have hr := ih xs (by simp only [List.length_cons] at hl; omega)
          refine ⟨?_, ?_, ?_⟩
          · simp only [embScanF, embSegsF, hj, hpg, flatCat, segOut]
            rw [hr.1]
            rfl
          · simp only [embSegsF, hj, hpg, flatCat, segOrig]
            rw [hr.2.1]
            rfl
          · simp only [embSegsF, hj, hpg, List.all_cons, segValidB, hr.2.2]
            rfl
        · have hf := pngSpanLen_facts hpg
          have hlen : ((x :: xs).take e).length = e := by
            simp only [List.length_take]
            omega
          have hr := ih ((x :: xs).drop e)
            (by simp only [List.length_drop, List.length_cons] at *; omega)
          refine ⟨?_, ?_, ?_⟩
          · simp only [embScanF, embSegsF, hj, hpg, flatCat, segOut, hlen]
            rw [hr.1]
          · simp only [embSegsF, hj, hpg, flatCat, segOrig]
            rw [hr.2.1, List.take_append_drop]
          · simp only [embSegsF, hj, hpg, List.all_cons, segValidB, hr.2.2,
              Bool.and_eq_true, beq_iff_eq, decide_eq_true_eq, Bool.and_true]
            refine ⟨⟨⟨⟨⟨?_, ?_⟩, ?_⟩, ?_⟩, ?_⟩, ?_⟩
            · omega
            · rw [getD_take (show 0 < e by omega) 0]; exact hf.2.2.2.2.1
            · rw [getD_take (show 1 < e by omega) 0]; exact hf.2.2.2.2.2.1
            · rw [getD_take (show 2 < e by omega) 0]; exact hf.2.2.2.2.2.2.1
            · rw [getD_take (show 3 < e by omega) 0]; exact hf.2.2.2.2.2.2.2
            · rw [hlen]
              exact findPngEnd_take hf.2.2.1 (Nat.le_refl _)
      · have hf := jpegSpanLen_facts hj
        have hlen : ((x :: xs).take e).length = e := by
          simp only [List.length_take]
          omega
        have hr := ih ((x :: xs).drop e)
          (by simp only [List.length_drop, List.length_cons] at *; omega)
        refine ⟨?_, ?_, ?_⟩
        · simp only [embScanF, embSegsF, hj, flatCat, segOut, hlen]
          rw [hr.1]
        · simp only [embSegsF, hj, flatCat, segOrig]
          rw [hr.2.1, List.take_append_drop]
        · simp only [embSegsF, hj, List.all_cons, segValidB, hr.2.2,
            Bool.and_eq_true, beq_iff_eq, decide_eq_true_eq, Bool.and_true]
          refine ⟨⟨⟨?_, ?_⟩, ?_⟩, ?_⟩
          · omega
          · rw [getD_take (show 0 < e by omega) 0]; exact hf.2.2.2.2.1
          · rw [getD_take (show 1 < e by omega) 0]; exact hf.2.2.2.2.2
          · rw [hlen]
            exact findJpegEnd_take hf.2.2.1 (Nat.le_refl _)

/-! Decomposition of the `compressJpegData` scan. -/

theorem jseg_del_validB {x : Nat} {xs : List Nat} {segLen : Nat}
    (h4 : 4 ≤ (x :: xs).length)
    (hseg : segLen = (x :: xs).getD 2 0 * 256 + (x :: xs).getD 3 0)
    (hth : 1024 < segLen)
    (hx : x = 255)
    (hm : ((x :: xs).getD 1 0 = 225 ∧ 10240 < segLen) ∨
      ((x :: xs).getD 1 0 = 254 ∧ 1024 < segLen) ∨
      (226 ≤ (x :: xs).getD 1 0 ∧ (x :: xs).getD 1 0 ≤ 239 ∧ 20480 < segLen)) :
    jsegValidB (.del ((x :: xs).take (2 + segLen)) (2 + segLen)) = true := by
  have hg0 : ((x :: xs).take (2 + segLen)).getD 0 0 = x :=
    by rw [getD_take (show 0 < 2 + segLen by omega) 0]; rfl
  have hg1 : ((x :: xs).take (2 + segLen)).getD 1 0 = (x :: xs).getD 1 0 :=
    getD_take (show 1 < 2 + segLen by omega) 0
  have hg2 : ((x :: xs).take (2 + segLen)).getD 2 0 = (x :: xs).getD 2 0 :=
    getD_take (show 2 < 2 + segLen by omega) 0
  have hg3 : ((x :: xs).take (2 + segLen)).getD 3 0 = (x :: xs).getD 3 0 :=
    getD_take (show 3 < 2 + segLen by omega) 0
  have hlen : ((x :: xs).take (2 + segLen)).length = min (2 + segLen) (x :: xs).length :=
    List.length_take _ _
  simp only [jsegValidB, hg0, hg1, hg2, hg3, Bool.and_eq_true, beq_iff_eq,
    decide_eq_true_eq, Bool.or_eq_true]
  refine ⟨⟨⟨⟨?_, hx⟩, by omega⟩, by simp only [List.length_cons] at *; omega⟩, ?_⟩
  · simp only [List.length_cons] at *; omega
  · rcases hm with ⟨hm1, hm2⟩ | ⟨hm1, hm2⟩ | ⟨hm1, hm2, hm3⟩
    · exact Or.inl (Or.inl ⟨hm1, by omega⟩)
    · exact Or.inl (Or.inr ⟨hm1, by omega⟩)
    · exact Or.inr ⟨⟨hm1, hm2⟩, by omega⟩

theorem jpegScanF_decomp : ∀ (fuel : Nat) (l : List Nat), l.length ≤ fuel →
    jpegScanF fuel l = (flatCat jsegKept (jpegSegsF fuel l), sumNom (jpegSegsF fuel l)) ∧
    flatCat jsegOrig (jpegSegsF fuel l) = l ∧
    (jpegSegsF fuel l).all jsegValidB = true := by
  intro fuel
  induction fuel with
  | zero =>
    intro l hl
    have hnil : l = [] := List.length_eq_zero.1 (Nat.le_zero.1 hl)
    subst hnil
    refine ⟨?_, ?_, ?_⟩ <;> simp [jpegScanF, jpegSegsF, flatCat, sumNom]
  | succ n ih =>
    intro l hl
    cases l with
    | nil => refine ⟨?_, ?_, ?_⟩ <;> simp [jpegScanF, jpegSegsF, flatCat, sumNom]
    | cons x xs =>
      simp only [List.length_cons] at hl
      by_cases h4 : 4 ≤ (x :: xs).length
      case neg =>
        have hr := ih xs (by omega)
        refine ⟨?_, ?_, ?_⟩
        · simp only [jpegScanF, jpegSegsF, if_neg h4, flatCat, jsegKept, sumNom, jsegNom,
            hr.1, List.singleton_append, Nat.zero_add]
        · simp only [jpegSegsF, if_neg h4, flatCat, jsegOrig]
          rw [hr.2.1]
          rfl
        · simp only [jpegSegsF, if_neg h4, List.all_cons, jsegValidB, hr.2.2, Bool.and_self]
      case pos =>
        by_cases hA : x = 255 ∧ (x :: xs).getD 1 0 = 225 ∧
            10240 < (x :: xs).getD 2 0 * 256 + (x :: xs).getD 3 0
        case pos =>
          have hr := ih ((x :: xs).drop (2 + ((x :: xs).getD 2 0 * 256 + (x :: xs).getD 3 0)))
            (by simp only [List.length_drop, List.length_cons]; omega)
          refine ⟨?_, ?_, ?_⟩
          · simp only [jpegScanF, jpegSegsF, if_pos h4, if_pos hA, hr.1, flatCat, jsegKept,
              sumNom, jsegNom, List.nil_append, Prod.mk.injEq]
            exact ⟨trivial, by omega⟩
          · simp only [jpegSegsF, if_pos h4, if_pos hA, flatCat, jsegOrig]
            rw [hr.2.1, List.take_append_drop]
          · simp only [jpegSegsF, if_pos h4, if_pos hA, List.all_cons, hr.2.2, Bool.and_true]
            exact jseg_del_validB h4 rfl (by omega) hA.1 (Or.inl ⟨hA.2.1, hA.2.2⟩)
        case neg =>
          by_cases hB : x = 255 ∧ (x :: xs).getD 1 0 = 254 ∧
              1024 < (x :: xs).getD 2 0 * 256 + (x :: xs).getD 3 0
          case pos =>
            have hr := ih ((x :: xs).drop (2 + ((x :: xs).getD 2 0 * 256 + (x :: xs).getD 3 0)))
              (by simp only [List.length_drop, List.length_cons]; omega)
            refine ⟨?_, ?_, ?_⟩
            · simp only [jpegScanF, jpegSegsF, if_pos h4, if_neg hA, if_pos hB, hr.1, flatCat,
                jsegKept, sumNom, jsegNom, List.nil_append, Prod.mk.injEq]
              exact ⟨trivial, by omega⟩
            · simp only [jpegSegsF, if_pos h4, if_neg hA, if_pos hB, flatCat, jsegOrig]
              rw [hr.2.1, List.take_append_drop]
            · simp only [jpegSegsF, if_pos h4, if_neg hA, if_pos hB, List.all_cons, hr.2.2,
                Bool.and_true]
              exact jseg_del_validB h4 rfl (by omega) hB.1 (Or.inr (Or.inl ⟨hB.2.1, hB.2.2⟩))
          case neg =>
            by_cases hC : x = 255 ∧ 226 ≤ (x :: xs).getD 1 0 ∧ (x :: xs).getD 1 0 ≤ 239 ∧
                20480 < (x :: xs).getD 2 0 * 256 + (x :: xs).getD 3 0
            case pos =>
              have hr := ih
                ((x :: xs).drop (2 + ((x :: xs).getD 2 0 * 256 + (x :: xs).getD 3 0)))
                (by simp only [List.length_drop, List.length_cons]; omega)
              refine ⟨?_, ?_, ?_⟩
              · simp only [jpegScanF, jpegSegsF, if_pos h4, if_neg hA, if_neg hB, if_pos hC,
                  hr.1, flatCat, jsegKept, sumNom, jsegNom, List.nil_append, Prod.mk.injEq]
                exact ⟨trivial, by omega⟩
              · simp only [jpegSegsF, if_pos h4, if_neg hA, if_neg hB, if_pos hC, flatCat,
                  jsegOrig]
                rw [hr.2.1, List.take_append_drop]
              · simp only [jpegSegsF, if_pos h4, if_neg hA, if_neg hB, if_pos hC,
                  List.all_cons, hr.2.2, Bool.and_true]
                exact jseg_del_validB h4 rfl (by omega) hC.1
                  (Or.inr (Or.inr ⟨hC.2.1, hC.2.2.1, hC.2.2.2⟩))
            case neg =>
              have hr := ih xs (by omega)
              refine ⟨?_, ?_, ?_⟩
              · simp only [jpegScanF, jpegSegsF, if_pos h4, if_neg hA, if_neg hB, if_neg hC,
                  flatCat, jsegKept, sumNom, jsegNom, hr.1, List.singleton_append,
                  Nat.zero_add]
              · simp only [jpegSegsF, if_pos h4, if_neg hA, if_neg hB, if_neg hC, flatCat,
                  jsegOrig]
                rw [hr.2.1]
                rfl
              · simp only [jpegSegsF, if_pos h4, if_neg hA, if_neg hB, if_neg hC,
                  List.all_cons, jsegValidB, hr.2.2, Bool.and_self]

theorem jpegScan_decomp (l : List Nat) :
    jpegScan l = (flatCat jsegKept (jpegSegs l), sumNom (jpegSegs l)) ∧
    flatCat jsegOrig (jpegSegs l) = l ∧
    (jpegSegs l).all jsegValidB = true :=
  jpegScanF_decomp l.length l (Nat.le_refl _)

/-! Relating the candidate ladder of `compressImage` to the minimum of the
candidate pool. -/

theorem candFold_min (js : List (List Nat)) : ∀ (b : Option (List Nat) × Nat),
    candFold js b = match minBySize js with
      | none => b
      | some m => if m.length < b.2 then (some m, m.length) else b := by
  induction js with
  | nil => intro b; rfl
  | cons x xs ih =>
    intro b
    have hstep : candFold (x :: xs) b =
        candFold xs (if x.length < b.2 then (some x, x.length) else b) := rfl
    rw [hstep, ih]
    rcases hmm : minBySize xs with _ | y
    · simp only [minBySize, hmm]
    · simp only [minBySize, hmm]
      by_cases h1 : x.length < b.2 <;> by_cases h2 : y.length < x.length <;>
        by_cases h3 : y.length < b.2 <;> simp [h1, h2, h3] <;>
        first | rfl | (exfalso; omega)

theorem foldl_candStep_filterMap : ∀ (es : List (Option (List Nat)))
    (b : Option (List Nat) × Nat), es.foldl candStep b = candFold (es.filterMap id) b := by
  intro es
  induction es with
  | nil => intro b; rfl
  | cons e es ih =>
    intro b
    cases e with
    | none =>
      simp only [List.foldl_cons, candStep, List.filterMap_cons, id]
      exact ih b
    | some v =>
      simp only [List.foldl_cons, candStep, List.filterMap_cons, id]
      exact ih _

theorem minBySize_eq_none {js : List (List Nat)} (h : minBySize js = none) : js = [] := by
  cases js with
  | nil => rfl
  | cons x xs =>
    rcases hmm : minBySize xs with _ | y
    · simp only [minBySize, hmm] at h
      simp at h
    · simp only [minBySize, hmm] at h
      by_cases hc : y.length < x.length
      · rw [if_pos hc] at h
        simp at h
      · rw [if_neg hc] at h
        simp at h

theorem minBySize_append_one (p : List Nat) : ∀ (js : List (List Nat)),
    minBySize (js ++ [p]) = match minBySize js with
      | none => some p
      | some m => if p.length < m.length then some p else some m := by
  intro js
  induction js with
  | nil => simp [minBySize]
  | cons x xs ih =>
    rcases hmm : minBySize xs with _ | y
    · have hxs : xs = [] := minBySize_eq_none hmm
      subst hxs
      simp only [List.nil_append, List.cons_append, minBySize]
    · simp only [List.cons_append, minBySize, List.append_eq, ih, hmm]
      by_cases h1 : p.length < y.length <;> by_cases h2 : y.length < x.length <;>
        by_cases h3 : p.length < x.length <;> simp [h1, h2, h3] <;>
        first | rfl | (exfalso; omega)

theorem imgSelect_eq_spec (input : List Nat) (mimePng : Bool)
    (e85 e75 e60 e40 ePng : Option (List Nat)) :
    imgSelect input mimePng e85 e75 e60 e40 ePng =
    imageSpecOut input mimePng e85 e75 e60 e40 ePng := by
  simp only [imgSelect, imgBest, imageSpecOut]
  rw [foldl_candStep_filterMap, candFold_min]
  rcases hmj : minBySize ([e85, e75, e60, e40].filterMap id) with _ | m
  · have hjs : [e85, e75, e60, e40].filterMap id = [] := minBySize_eq_none hmj
    rw [hjs]
    simp only [List.nil_append]
    cases mimePng with
    | true =>
      simp only [Bool.not_true, Bool.and_false]
      rcases ePng with _ | p <;>
        simp [minBySize, Nat.le_refl, show 19 * input.length ≤ 20 * input.length by omega]
    | false =>
      simp only [Bool.not_false, Bool.and_true,
        decide_eq_true (show 4 * input.length ≤ 5 * input.length by omega)]
      rcases ePng with _ | p
      · simp [minBySize, candStep, show 19 * input.length ≤ 20 * input.length by omega]
      · simp only [candStep, minBySize,
          if_pos (show (4 * input.length ≤ 5 * input.length ∧ false = false) by
            constructor
            · omega
            · rfl)]
        by_cases hp : p.length < input.length
        · rw [if_pos hp]
          split_ifs <;> (try simp only [Option.getD_some, and_true, true_and] at *) <;>
            (first | rfl | omega)
        · rw [if_neg hp]
          split_ifs <;> (try simp only [Option.getD_some, and_true, true_and] at *) <;>
            (first | rfl | omega)
  · by_cases hmn : m.length < input.length
    case pos =>
      simp only [if_pos hmn]
      cases mimePng with
      | true =>
        have hcond : ¬(4 * input.length ≤
            5 * ((some m, m.length) : Option (List Nat) × Nat).2 ∧ (true : Bool) = false) := by
          simp
        rw [if_neg hcond]
        rcases ePng with _ | p <;>
          simp only [Bool.not_true, Bool.and_false, List.append_nil, hmj,
            Option.getD_some] <;>
          split_ifs <;> (try simp only [Option.getD_some] at *) <;>
          (first | rfl | omega | (exfalso; omega) |
              (split_ifs <;> (first | rfl | omega | (exfalso; omega))))
      | false =>
        by_cases hc : 4 * input.length ≤ 5 * m.length
        · have hcondp : 4 * input.length ≤
              5 * ((some m, m.length) : Option (List Nat) × Nat).2 ∧ (false : Bool) = false :=
            ⟨by simpa using hc, rfl⟩
          rw [if_pos hcondp]
          rcases ePng with _ | p
          · simp only [candStep, decide_eq_true hc, Bool.not_false, Bool.and_true,
              List.append_nil, hmj, Option.getD_some]
            split_ifs <;> (try simp only [Option.getD_some] at *) <;>
              (first | rfl | omega | (exfalso; omega) |
              (split_ifs <;> (first | rfl | omega | (exfalso; omega) |
              (split_ifs <;> (first | rfl | omega | (exfalso; omega))))))
          · simp only [candStep, decide_eq_true hc, Bool.not_false, Bool.and_true,
              minBySize_append_one, hmj, Option.getD_some]
            split_ifs <;> (try simp only [Option.getD_some] at *) <;>
              (first | rfl | omega | (exfalso; omega) |
              (split_ifs <;> (first | rfl | omega | (exfalso; omega) |
              (split_ifs <;> (first | rfl | omega | (exfalso; omega))))))
        · have hcondn : ¬(4 * input.length ≤
              5 * ((some m, m.length) : Option (List Nat) × Nat).2 ∧ (false : Bool) = false) := by
            rintro ⟨h1, _⟩
            exact hc (by simpa using h1)
          rw [if_neg hcondn]
          rcases ePng with _ | p <;>
            simp only [decide_eq_false hc, Bool.and_false, Bool.false_and,
              List.append_nil, hmj, Option.getD_some] <;>
            split_ifs <;> (try simp only [Option.getD_some] at *) <;>
            (first | rfl | omega | (exfalso; omega) |
              (split_ifs <;> (first | rfl | omega | (exfalso; omega))))
    case neg =>
      simp only [if_neg hmn]
      have hsm : 4 * input.length ≤ 5 * m.length := by omega
      cases mimePng with
      | true =>
        have hcond : ¬(4 * input.length ≤
            5 * ((none, input.length) : Option (List Nat) × Nat).2 ∧ (true : Bool) = false) := by
          simp
        rw [if_neg hcond]
        rcases ePng with _ | p <;>
          simp only [Bool.not_true, Bool.and_false, List.append_nil, hmj,
            Option.getD_some] <;>
          split_ifs <;> (try simp only [Option.getD_some] at *) <;>
          (first | rfl | omega | (exfalso; omega) |
              (split_ifs <;> (first | rfl | omega | (exfalso; omega))))
      | false =>
        have hcondp : 4 * input.length ≤
            5 * ((none, input.length) : Option (List Nat) × Nat).2 ∧ (false : Bool) = false :=
          ⟨by simpa using (show 4 * input.length ≤ 5 * input.length by omega), rfl⟩
        rw [if_pos hcondp]
        rcases ePng with _ | p
        · simp only [candStep, decide_eq_true hsm, Bool.not_false, Bool.and_true,
            List.append_nil, hmj, Option.getD_some]
          split_ifs <;> (try simp only [Option.getD_some] at *) <;>
            (first | rfl | omega | (exfalso; omega) |
              (split_ifs <;> (first | rfl | omega | (exfalso; omega))))
        · simp only [candStep, decide_eq_true hsm, Bool.not_false, Bool.and_true,
            minBySize_append_one, hmj, Option.getD_some]
          split_ifs <;> (try simp only [Option.getD_some] at *) <;>
            (first | rfl | omega | (exfalso; omega) |
              (split_ifs <;> (first | rfl | omega | (exfalso; omega) |
              (split_ifs <;> (first | rfl | omega | (exfalso; omega))))))

/-! Remaining helper facts used by the claim theorems. -/

theorem removeAllPatF_stable {p c : List Nat} (h : removeOncePat p c = none) :
    ∀ fuel, removeAllPatF p fuel c = c := by
  intro fuel
  cases fuel with
  | zero => rfl
  | succ n =>
    rw [removeAllPatF, h]

theorem removeOncePat_none_of {p c : List Nat} (h : hasSeq p c = false) :
    removeOncePat p c = none := by
  unfold removeOncePat
  rcases hidx : idxOfSeq p c with _ | s
  · rfl
  · rw [hasSeq, hidx] at h
    cases h

theorem findValueEndF_eq_len (content : List Nat) :
    ∀ (fuel e : Nat), content.length - e ≤ fuel → e ≤ content.length →
    (∀ k, e ≤ k → k < content.length → content.getD k 0 ≠ 47 ∧ content.getD k 0 ≠ 62) →
    findValueEndF content fuel e = content.length := by
  intro fuel
  induction fuel with
  | zero =>
    intro e hd he hks
    rw [findValueEndF]
    omega
  | succ n ih =>
    intro e hd he hks
    rw [findValueEndF]
    split
    · next hlt =>
      rw [if_pos ?_]
      · exact ih (e + 1) (by omega) (by omega) (fun k hk1 hk2 => hks k (by omega) hk2)
      · refine ⟨(hks e (Nat.le_refl _) hlt).1, ?_⟩
        cases hpre : isPrefB [62, 62] (content.drop e) with
        | false => rfl
        | true =>
          exfalso
          rcases (isPrefB_iff [62, 62] _).1 hpre with ⟨v, hv⟩
          have hge : content.getD e 0 = 62 := by
            rw [List.getD_eq_getElem?_getD]
            have hdp : content[e]? = (content.drop e)[0]? := by
              rw [List.getElem?_drop, Nat.add_zero]
            rw [hdp, hv]
            rfl
          exact (hks e (Nat.le_refl _) hlt).2 hge
    · next hlt => omega

theorem findValueEnd_eq_len (content : List Nat) : ∀ e, e ≤ content.length →
    (∀ k, e ≤ k → k < content.length → content.getD k 0 ≠ 47 ∧ content.getD k 0 ≠ 62) →
    findValueEnd content e = content.length :=
  fun e he hks => findValueEndF_eq_len content _ e (Nat.le_refl _) he hks

theorem removeAll_unterminated {p a b : List Nat}
    (hp : p ≠ [])
    (hidx : idxOfSeq p (a ++ p ++ b) = some a.length)
    (hb : b.all (fun c => !(c == 47) && !(c == 62)) = true)
    (hna : hasSeq p a = false) :
    removeAllPat p (a ++ p ++ b) = a := by
  have hb2 : ∀ c ∈ b, c ≠ 47 ∧ c ≠ 62 := by
    intro c hc
    have := List.all_eq_true.1 hb c hc
    simp only [Bool.and_eq_true, Bool.not_eq_true', beq_eq_false_iff_ne] at this
    exact this
  have hlen : (a ++ p ++ b).length = a.length + p.length + b.length := by
    simp only [List.length_append]
  have hfv : findValueEnd (a ++ p ++ b) (a.length + p.length) = (a ++ p ++ b).length := by
    refine findValueEnd_eq_len _ _ (by simp) ?_
    intro k hk1 hk2
    have hbyte : (a ++ p ++ b).getD k 0 = b.getD (k - (a.length + p.length)) 0 := by
      rw [List.append_assoc]
      rw [List.getD_append_right a (p ++ b) 0 k (by omega)]
      rw [List.getD_append_right p b 0 (k - a.length) (by omega)]
      congr 1
      omega
    have hmem : b.getD (k - (a.length + p.length)) 0 ∈ b := by
      have hklt : k - (a.length + p.length) < b.length := by omega
      rw [List.getD_eq_getElem b 0 hklt]
      exact List.getElem_mem hklt
    rw [hbyte]
    exact hb2 _ hmem
  have honce : removeOncePat p (a ++ p ++ b) = some a := by
    simp only [removeOncePat, hidx]
    rw [hfv, List.drop_length, List.append_nil, List.append_assoc, List.take_left]
  have hfuel : (a ++ p ++ b).length = ((a ++ p ++ b).length - 1) + 1 := by
    have : p.length ≠ 0 := by
      intro h0
      exact hp (List.length_eq_zero.1 h0)
    simp only [hlen]
    omega
  rw [removeAllPat, hfuel, removeAllPatF, honce]
  exact removeAllPatF_stable (removeOncePat_none_of hna) _

theorem compressPDFData_not_pdf {l : List Nat} (h : isPdf l = false) :
    compressPDFData l = l := by
  simp [compressPDFData, compressPDFDataT, h]

theorem compressPDFDataT_trace (l : List Nat) :
    (compressPDFDataT l).2 = if isPdf l = false then [] else [20, 50, 70, 90, 100] := by
  simp only [compressPDFDataT]
  split_ifs with h1 h2 <;> simp_all [compressPDFDataT]

theorem compressPDFDataC_eq (l : List Nat) :
    compressPDFDataC l = some (compressPDFData l) := by
  cases hpdf : isPdf l with
  | false =>
    simp [compressPDFDataC, compressPDFData, compressPDFDataT, hpdf]
  | true =>
    simp only [compressPDFDataC, compressPDFData, compressPDFDataT, pdfTransformed,
      compressEmbeddedImages, hpdf, Bool.true_eq_false, if_false, embScanCF_eq,
      Option.map_some']
    generalize optimizeStreams (removeMetadataBinary (embScanF l.length l)) = c3
    by_cases hgate : 20 * c3.length < 19 * l.length
    · rw [if_pos hgate, if_pos hgate]
    · rw [if_neg hgate, if_neg hgate]

theorem candStep_inv {n : Nat} {b : Option (List Nat) × Nat}
    (hb : b.2 ≤ n ∧ ∀ x, b.1 = some x → x.length = b.2) (e : Option (List Nat)) :
    (candStep b e).2 ≤ n ∧ ∀ x, (candStep b e).1 = some x → x.length = (candStep b e).2 := by
  cases e with
  | none => exact hb
  | some v =>
    simp only [candStep]
    split_ifs with hv
    · exact ⟨by omega, fun x hx => by injection hx with hx2; rw [hx2]⟩
    · exact hb

theorem imgBest_inv (input : List Nat) (mimePng : Bool)
    (e85 e75 e60 e40 ePng : Option (List Nat)) :
    (imgBest input mimePng e85 e75 e60 e40 ePng).2 ≤ input.length ∧
    ∀ x, (imgBest input mimePng e85 e75 e60 e40 ePng).1 = some x →
      x.length = (imgBest input mimePng e85 e75 e60 e40 ePng).2 := by
  have h0 : ((none, input.length) : Option (List Nat) × Nat).2 ≤ input.length ∧
      ∀ x, ((none, input.length) : Option (List Nat) × Nat).1 = some x →
        x.length = ((none, input.length) : Option (List Nat) × Nat).2 :=
    ⟨Nat.le_refl _, fun x hx => by cases hx⟩
  have h4 := candStep_inv (candStep_inv (candStep_inv (candStep_inv h0 e85) e75) e60) e40
  unfold imgBest
  simp only [List.foldl_cons, List.foldl_nil]
  split_ifs with hc
  · exact candStep_inv h4 ePng
  · exact h4

end PdfTurbo
namespace PdfTurbo

/-! Claim theorems. -/

/-- C1: for every input on which a compression call succeeds, the returned
data is at most as long as the input; and whenever the candidate selector
does not accept the transformed buffer (ratio not below the threshold), the
returned data is byte-for-byte the input, for both the PDF path and the
image path. -/
theorem compress_output_bounds (input : List Nat) (mimePng : Bool)
    (e85 e75 e60 e40 ePng : Option (List Nat)) :
    (compressPDFData input).length ≤ input.length ∧
    (19 * input.length ≤ 20 * (pdfTransformed input).length →
      compressPDFData input = input) ∧
    (imgSelect input mimePng e85 e75 e60 e40 ePng).length ≤ input.length ∧
    (19 * input.length ≤ 20 * (imgBest input mimePng e85 e75 e60 e40 ePng).2 →
      imgSelect input mimePng e85 e75 e60 e40 ePng = input) := by
  refine ⟨?_, ?_, ?_, ?_⟩
  · simp only [compressPDFData, compressPDFDataT]
    generalize pdfTransformed input = c3
    split_ifs with h1 h2 <;> simp only [] <;> omega
  · intro h
    simp only [compressPDFData, compressPDFDataT]
    generalize hc3 : pdfTransformed input = c3
    rw [hc3] at h
    split_ifs with h1 h2
    · rfl
    · exact absurd h2 (by omega)
    · rfl
  · have hinv := imgBest_inv input mimePng e85 e75 e60 e40 ePng
    simp only [imgSelect]
    split_ifs with hg
    · exact Nat.le_refl _
    · rcases hx : (imgBest input mimePng e85 e75 e60 e40 ePng).1 with _ | x
      · simp [hx]
      · simp only [hx, Option.getD_some]
        rw [hinv.2 x hx]
        exact hinv.1
  · intro h
    simp only [imgSelect]
    rw [if_pos h]

/-- C1 witness: on the two-byte non-PDF buffer with no successful encodes the
selector rejects and both calls return the input unchanged. -/
theorem compress_output_bounds_witness :
    compressPDFData [0, 1] = [0, 1] ∧ imgSelect [0, 1] true none none none none none = [0, 1] :=
  ⟨(compress_output_bounds [0, 1] true none none none none none).2.1 (by decide),
   (compress_output_bounds [0, 1] true none none none none none).2.2.2 (by decide)⟩

/-- C2: on every decodable input, compressImage returns exactly the
spec-side selection: the smallest successful JPEG encode of the 85/75/60/40
ladder, one PNG encode joining the pool exactly when that smallest is at
least 80 percent of the input size and the MIME hint is not PNG, and the
original bytes returned unchanged when the best candidate is not at least 5
percent smaller than the input. -/
theorem compress_image_ladder_policy (input : List Nat) (mimePng : Bool)
    (e85 e75 e60 e40 ePng : Option (List Nat)) :
    (compressImageT input true mimePng e85 e75 e60 e40 ePng).1 =
      some (imageSpecOut input mimePng e85 e75 e60 e40 ePng) := by
  have h : (compressImageT input true mimePng e85 e75 e60 e40 ePng).1 =
      some (imgSelect input mimePng e85 e75 e60 e40 ePng) := rfl
  rw [h, imgSelect_eq_spec]

/-- C3 counterexample: in the buffer "ab/CreatorXY" the metadata key has no
terminating `/` or `>>` before buffer end, yet the stripper removes the key
and every byte after it instead of leaving the bytes unchanged. -/
theorem scanner_unterminated_counterexample :
    removeMetadataBinary [97, 98, 47, 67, 114, 101, 97, 116, 111, 114, 88, 89] = [97, 98] ∧
    removeMetadataBinary [97, 98, 47, 67, 114, 101, 97, 116, 111, 114, 88, 89] ≠
      [97, 98, 47, 67, 114, 101, 97, 116, 111, 114, 88, 89] := by
  constructor <;> decide

/-- C3 amended: for the JPEG and PNG scans an unterminated span is indeed
treated as not found and the buffer passes through unchanged, but a metadata
key with no `/` or `>>` terminator before buffer end is removed together
with every byte from the key to the end of the buffer. -/
theorem scanner_unterminated_amended (data a b p : List Nat) :
    (hasSeq [255, 217] data = false → hasSeq [73, 69, 78, 68] data = false →
      compressEmbeddedImages data = data) ∧
    (p ∈ pdfMetaPatterns → idxOfSeq p (a ++ p ++ b) = some a.length →
      b.all (fun c => !(c == 47) && !(c == 62)) = true → hasSeq p a = false →
      removeAllPat p (a ++ p ++ b) = a) := by
  constructor
  · intro h1 h2
    exact embScanF_id data.length data (Nat.le_refl _) h1 h2
  · intro hp hidx hb hna
    have hpne : p ≠ [] := by
      simp only [pdfMetaPatterns, List.mem_cons, List.not_mem_nil, or_false] at hp
      rcases hp with rfl | rfl | rfl | rfl | rfl | rfl | rfl | rfl <;> decide
    exact removeAll_unterminated hpne hidx hb hna

/-- C3 amended witness: a JPEG start marker with no end marker passes
through, and an unterminated Creator key swallows the rest of the buffer. -/
theorem scanner_unterminated_amended_witness :
    compressEmbeddedImages [255, 216, 0] = [255, 216, 0] ∧
    removeAllPat patCreator ([65] ++ patCreator ++ [66]) = [65] :=
  ⟨(scanner_unterminated_amended [255, 216, 0] [] [] []).1 (by decide) (by decide),
   (scanner_unterminated_amended [] [65] [66] patCreator).2 (by decide) (by decide)
     (by decide) (by decide)⟩

/-- C4: the output of the PDF metadata stripper contains no occurrence of any
of the eight keys, and its length never exceeds the input length. -/
theorem metadata_stripper_removes_all_keys (data : List Nat) :
    pdfMetaPatterns.all (fun p => !hasSeq p (removeMetadataBinary data)) = true ∧
    (removeMetadataBinary data).length ≤ data.length := by
  constructor
  · rw [List.all_eq_true]
    intro p hp
    rw [Bool.not_eq_true']
    have hgood : p ≠ [] ∧ ∀ b ∈ p.tail, b ≠ 47 ∧ b ≠ 62 := by
      simp only [pdfMetaPatterns, List.mem_cons, List.not_mem_nil, or_false] at hp
      rcases hp with rfl | rfl | rfl | rfl | rfl | rfl | rfl | rfl <;>
        exact ⟨by decide, by decide⟩
    exact foldl_removeAll_no hgood.1 hgood.2 pdfMetaPatterns data hp
  · exact foldl_removeAll_le pdfMetaPatterns data

/-- C5: frame property of the embedded-image pass — the scan splits the
buffer into literal bytes and detected spans longer than 1000 bytes carrying
the right signatures and end markers; literal bytes appear unchanged and in
order, and each span is replaced by its recompression candidate exactly when
the candidate is strictly smaller, else kept verbatim. -/
theorem embedded_image_pass_frame (data : List Nat) :
    compressEmbeddedImages data = flatCat segOut (embSegs data) ∧
    flatCat segOrig (embSegs data) = data ∧
    (embSegs data).all segValidB = true := by
  have h := embSegsF_spec data.length data (Nat.le_refl _)
  exact ⟨h.1, h.2.1, h.2.2⟩

/-- C6 counterexample: the successful compressPDF call on the non-PDF buffer
[0] reports the progress sequence [10]; its final value on success is 10,
not 100. -/
theorem progress_counterexample :
    (compressPDF [0]).1 = some [0] ∧ (compressPDF [0]).2 = [10] ∧
    (compressPDF [0]).2.getLast? ≠ some 100 := by
  refine ⟨?_, ?_, ?_⟩ <;> decide

/-- C6 amended: every progress sequence is non-decreasing with values in
[0, 100]; a successful compressImage call, and a successful compressPDF call
whose input passes the %PDF magic check, report 100 last; a successful
compressPDF call on a non-PDF buffer reports 10 last. -/
theorem progress_amended (input : List Nat) (decodeOk mimePng : Bool)
    (e85 e75 e60 e40 ePng : Option (List Nat)) :
    (nondecB (compressPDF input).2 = true ∧
      (compressPDF input).2.all (fun v => v ≤ 100) = true ∧
      ((compressPDF input).1.isSome = true → isPdf input = true →
        (compressPDF input).2.getLast? = some 100) ∧
      ((compressPDF input).1.isSome = true → isPdf input = false →
        (compressPDF input).2.getLast? = some 10)) ∧
    (nondecB (compressImageT input decodeOk mimePng e85 e75 e60 e40 ePng).2 = true ∧
      (compressImageT input decodeOk mimePng e85 e75 e60 e40 ePng).2.all
        (fun v => v ≤ 100) = true ∧
      ((compressImageT input decodeOk mimePng e85 e75 e60 e40 ePng).1.isSome = true →
        (compressImageT input decodeOk mimePng e85 e75 e60 e40 ePng).2.getLast? =
          some 100)) := by
  constructor
  · by_cases hemp : input.isEmpty = true
    · refine ⟨?_, ?_, ?_, ?_⟩ <;> simp [compressPDF, hemp, nondecB]
    · have h2 : compressPDF input =
          (some (compressPDFDataT input).1, 10 :: (compressPDFDataT input).2) := by
        simp [compressPDF, hemp]
      cases hpdf : isPdf input with
      | false =>
        have htr : (compressPDFDataT input).2 = [] := by
          rw [compressPDFDataT_trace, if_pos (by rw [hpdf])]
        have htrace : (compressPDF input).2 = [10] := by rw [h2, htr]
        refine ⟨?_, ?_, ?_, ?_⟩
        · rw [htrace]
          decide
        · rw [htrace]
          decide
        · intro _ hpt
          cases hpt
        · intro _ _
          rw [htrace]
          decide
      | true =>
        have htr : (compressPDFDataT input).2 = [20, 50, 70, 90, 100] := by
          rw [compressPDFDataT_trace, if_neg (by rw [hpdf]; decide)]
        have htrace : (compressPDF input).2 = [10, 20, 50, 70, 90, 100] := by
          rw [h2, htr]
        refine ⟨?_, ?_, ?_, ?_⟩
        · rw [htrace]
          decide
        · rw [htrace]
          decide
        · intro _ _
          rw [htrace]
          decide
        · intro _ hpt
          cases hpt
  · cases decodeOk with
    | false =>
      have htrace : (compressImageT input false mimePng e85 e75 e60 e40 ePng).2 = [20] := rfl
      have hnone : (compressImageT input false mimePng e85 e75 e60 e40 ePng).1 = none := rfl
      refine ⟨?_, ?_, ?_⟩
      · rw [htrace]
        decide
      · rw [htrace]
        decide
      · intro hs
        rw [hnone] at hs
        exact absurd hs (by decide)
    | true =>
      have htrace : (compressImageT input true mimePng e85 e75 e60 e40 ePng).2 =
          [20, 40, 60, 70, 80, 90, 100] := rfl
      refine ⟨?_, ?_, ?_⟩
      · rw [htrace]
        decide
      · rw [htrace]
        decide
      · intro _
        rw [htrace]
        decide

/-- C6 amended witness: a PDF call ends at 100, a non-PDF call ends at 10,
and a successful image call ends at 100. -/
theorem progress_amended_witness :
    (compressPDF [37, 80, 68, 70]).2.getLast? = some 100 ∧
    (compressPDF [0]).2.getLast? = some 10 ∧
    (compressImageT [0] true false none none none none none).2.getLast? = some 100 :=
  ⟨(progress_amended [37, 80, 68, 70] true false none none none none none).1.2.2.1
      (by decide) (by decide),
   (progress_amended [0] true false none none none none none).1.2.2.2
      (by decide) (by decide),
   (progress_amended [0] true false none none none none none).2.2.2 (by decide)⟩

/-- C7: the PDF pipeline is total on arbitrary byte buffers — the checked
variant, which returns `none` wherever the source would perform a buffer
access without a sufficient bound (the 8-byte signature slice of
compressPngData being the one unguarded access), returns `some` of the
unchecked result on every input, corrupted buffers included. -/
theorem compress_pdf_total (input : List Nat) :
    compressPDFDataC input = some (compressPDFData input) :=
  compressPDFDataC_eq input

/-- C8 counterexample: the empty buffer does not start with %PDF, yet
compressPDF rejects it and returns no data at all instead of data equal to
the input. -/
theorem non_pdf_passthrough_counterexample :
    isPdf [] = false ∧ (compressPDF []).1 = none ∧ (compressPDF []).1 ≠ some [] := by
  refine ⟨?_, ?_, ?_⟩ <;> decide

/-- C8 amended: every nonempty buffer that does not start with the 4-byte
magic %PDF is returned byte-for-byte unchanged, both by the core and by the
wrapper; the empty buffer is instead rejected by the wrapper with no data. -/
theorem non_pdf_passthrough_amended (input : List Nat) :
    (isPdf input = false → compressPDFData input = input) ∧
    (input.isEmpty = false → isPdf input = false → (compressPDF input).1 = some input) ∧
    (compressPDF []).1 = none := by
  refine ⟨?_, ?_, ?_⟩
  · exact fun h => compressPDFData_not_pdf h
  · intro hne hpdf
    have h1 : (compressPDF input).1 = some (compressPDFData input) := by
      simp [compressPDF, hne, compressPDFData]
    rw [h1, compressPDFData_not_pdf hpdf]
  · decide

/-- C8 amended witness: a three-byte non-PDF buffer passes through both
layers unchanged. -/
theorem non_pdf_passthrough_amended_witness :
    compressPDFData [1, 2, 3] = [1, 2, 3] ∧ (compressPDF [1, 2, 3]).1 = some [1, 2, 3] :=
  ⟨(non_pdf_passthrough_amended [1, 2, 3]).1 (by decide),
   (non_pdf_passthrough_amended [1, 2, 3]).2.1 (by decide) (by decide)⟩

/-- C9: every iteration of the repeat-until-no-occurrence metadata removal
loop strictly decreases the buffer length, and the removal loop and the two
whitespace-collapse loops always reach their fixed points: no metadata
pattern, no triple newline and no double space survives. -/
theorem loops_reach_fixed_points (p content c : List Nat) :
    (p ∈ pdfMetaPatterns → removeOncePat p content = some c → c.length < content.length) ∧
    (p ∈ pdfMetaPatterns → hasSeq p (removeAllPat p content) = false) ∧
    (hasSeq [10, 10, 10] content = true →
      (replaceAllSeq [10, 10, 10] [10, 10] content).length < content.length) ∧
    (hasSeq [32, 32] content = true →
      (replaceAllSeq [32, 32] [32] content).length < content.length) ∧
    hasSeq [10, 10, 10] (shrinkLoop [10, 10, 10] [10, 10] content) = false ∧
    hasSeq [32, 32] (shrinkLoop [32, 32] [32] content) = false := by
  have hpne : p ∈ pdfMetaPatterns → p ≠ [] := by
    intro hp
    simp only [pdfMetaPatterns, List.mem_cons, List.not_mem_nil, or_false] at hp
    rcases hp with rfl | rfl | rfl | rfl | rfl | rfl | rfl | rfl <;> decide
  refine ⟨?_, ?_, ?_, ?_, ?_, ?_⟩
  · intro hp h
    exact removeOnce_lt (hpne hp) h
  · intro hp
    exact removeAllF_exit (hpne hp) content.length content (Nat.le_refl _)
  · exact replaceAll_lt (by decide) content
  · exact replaceAll_lt (by decide) content
  · exact shrink_no (by decide) content
  · exact shrink_no (by decide) content

/-- C9 witness: one removal step on "/Title A/B" shrinks the buffer, the
loops end with no pattern, and both collapse steps shrink their buffers. -/
theorem loops_reach_fixed_points_witness :
    ([47, 66] : List Nat).length <
      ([47, 84, 105, 116, 108, 101, 32, 65, 47, 66] : List Nat).length ∧
    hasSeq patTitle (removeAllPat patTitle [47, 84, 105, 116, 108, 101, 32, 65, 47, 66]) =
      false ∧
    (replaceAllSeq [10, 10, 10] [10, 10] [10, 10, 10, 10]).length <
      ([10, 10, 10, 10] : List Nat).length ∧
    (replaceAllSeq [32, 32] [32] [32, 32, 32]).length < ([32, 32, 32] : List Nat).length :=
  ⟨(loops_reach_fixed_points patTitle [47, 84, 105, 116, 108, 101, 32, 65, 47, 66]
      [47, 66]).1 (by decide) (by decide),
   (loops_reach_fixed_points patTitle [47, 84, 105, 116, 108, 101, 32, 65, 47, 66] []).2.1
      (by decide),
   (loops_reach_fixed_points patTitle [10, 10, 10, 10] []).2.2.1 (by decide),
   (loops_reach_fixed_points patTitle [32, 32, 32] []).2.2.2.1 (by decide)⟩

/-- C10 counterexample: on a ten-byte span whose declared EXIF length
overruns the buffer, compressJpegData deletes a truncated, non-whole segment
(every byte), so the result is neither the unchanged input nor the input
with only whole contained segments deleted above the removal threshold. -/
theorem jpeg_segment_counterexample :
    compressJpegData [255, 225, 255, 255, 0, 0, 0, 0, 0, 0] = [] ∧
    (jpegScanSpec [255, 225, 255, 255, 0, 0, 0, 0, 0, 0]).1 =
      [255, 225, 255, 255, 0, 0, 0, 0, 0, 0] ∧
    ¬(compressJpegData [255, 225, 255, 255, 0, 0, 0, 0, 0, 0] =
        [255, 225, 255, 255, 0, 0, 0, 0, 0, 0] ∨
      (compressJpegData [255, 225, 255, 255, 0, 0, 0, 0, 0, 0] =
          (jpegScanSpec [255, 225, 255, 255, 0, 0, 0, 0, 0, 0]).1 ∧
        ([255, 225, 255, 255, 0, 0, 0, 0, 0, 0] : List Nat).length <
          (jpegScanSpec [255, 225, 255, 255, 0, 0, 0, 0, 0, 0]).2 * 20)) := by
  refine ⟨?_, ?_, ?_⟩ <;> decide

/-- C10 amended: the per-span transform is all-or-nothing and never
re-encodes pixel data — it returns either the input span unchanged or the
span with metadata segments deleted, where each deleted segment starts at
its FF marker with second byte E1 (above 10240), FE (above 1024) or E2-EF
(above 20480 declared bytes), covers the two marker bytes plus the declared
big-endian length, truncated at the span end when the declaration overruns,
and the modified version is returned exactly when the sum of the declared
sizes exceeds one twentieth of the span length under integer division. -/
theorem jpeg_segment_amended (d : List Nat) :
    flatCat jsegOrig (jpegSegs d) = d ∧
    (jpegSegs d).all jsegValidB = true ∧
    compressJpegData d =
      (if d.length / 20 < sumNom (jpegSegs d) then flatCat jsegKept (jpegSegs d) else d) := by
  have h := jpegScan_decomp d
  refine ⟨h.2.1, h.2.2, ?_⟩
  simp only [compressJpegData, h.1]

end PdfTurbo
